import Mathlib

/-!
Verification of the httpsim step/flow execution engine.

Go strings are modelled as `List Char` (one `Char` standing for one byte;
Go's `strings` functions index bytes, and on ASCII data the two views
coincide).  Fallible Go operations return `Except`; a Go panic is
modelled as `Option.none` on an `Option`-valued result.  External
collaborators (the HTTP client, the gzip decoder, the text/template
engine, the regexp matcher) are parameters of the model, since their
code is not part of this repository.
-/

namespace Httpsim

/-- Go byte strings. -/
abbrev Str := List Char

/-- Literal helper: the character list of a string literal. -/
def lit (s : String) : Str := s.data

/-- `strings.Index s pat`: the first index at which `pat` occurs in `s`,
`none` when it does not occur (Go returns `-1`).  `strIndex [] [] = some 0`,
matching Go's `strings.Index("", "") == 0`. -/
def strIndex : Str → Str → Option Nat
  | s, pat =>
    if pat.isPrefixOf s then some 0
    else
      match s with
      | [] => none
      | _ :: t => (strIndex t pat).map (· + 1)

/-- Modelled from the spec: `gstrings.StringBetween` from the external
`go-helpers` library, which the spec describes as locating "the substring
strictly between the … match of `AfterThis` and the following
`BeforeThis`": find the first occurrence of `start`, then the first
occurrence of `stop` after its end, and return the text in between.
Returns `(false, "")` when either delimiter is missing. -/
def stringBetween (s start stop : Str) : Bool × Str :=
  match strIndex s start with
  | none => (false, [])
  | some i =>
    match strIndex (s.drop (i + start.length)) stop with
    | none => (false, [])
    | some j => (true, (s.drop (i + start.length)).take j)

/-- `stringBetweenN` from `src/step.go` lines 55–64.  `bef` is bound to
`AfterThis` and `aft` to `BeforeThis` at the call site.  For `occ > 0`
the source recurses on `body[befIndex+len(bef)+1:]`; the Go slice
expression panics when the cut point exceeds `len(body)`, which we model
as `none`. -/
def stringBetweenN : Str → Str → Str → Nat → Option (Bool × Str)
  | body, bef, aft, 0 => some (stringBetween body bef aft)
  | body, bef, aft, occ + 1 =>
    match strIndex body bef with
    | none => some (false, [])
    | some i =>
      if i + bef.length + 1 ≤ body.length then
        stringBetweenN (body.drop (i + bef.length + 1)) bef aft occ
      else
        none

/-- The left-to-right list of delimiter-bounded matches that
`stringBetweenN` actually steps through: each entry is the text between
an occurrence of `aft` (the `AfterThis` delimiter) and the following
`bef` (the `BeforeThis` delimiter), where the scan for the next
`AfterThis` occurrence resumes one byte past the end of the previous
one (the source's `+1`).  The list stops early when continuing the scan
would make the source panic on an out-of-range slice.  Defined with
fuel; `body.length + 1` is always enough, since each step drops at
least one byte. -/
def goMatchesAux : Nat → Str → Str → Str → List Str
  | 0, _, _, _ => []
  | fuel + 1, body, aft, bef =>
    match stringBetween body aft bef with
    | (false, _) => []
    | (true, m) =>
      match strIndex body aft with
      | none => []
      | some i =>
        if i + aft.length + 1 ≤ body.length then
          m :: goMatchesAux fuel (body.drop (i + aft.length + 1)) aft bef
        else
          [m]

/-- The occurrence scan that `stringBetweenN` performs, as a list. -/
def goMatches (body aft bef : Str) : List Str :=
  goMatchesAux (body.length + 1) body aft bef

/-- Formalisation of the spec's notion of the left-to-right list of
delimiter-bounded matches (claim C1): each entry is the text strictly
between an occurrence of `AfterThis` and the following `BeforeThis`,
and the scan for the next occurrence of `AfterThis` resumes directly
at the end of the previous one.  Defined with fuel `body.length + 1`,
which suffices for every nonempty `AfterThis` delimiter. -/
def specMatchesAux : Nat → Str → Str → Str → List Str
  | 0, _, _, _ => []
  | fuel + 1, body, aft, bef =>
    match stringBetween body aft bef with
    | (false, _) => []
    | (true, m) =>
      match strIndex body aft with
      | none => []
      | some i => m :: specMatchesAux fuel (body.drop (i + aft.length)) aft bef

/-- The spec-side match list of claim C1. -/
def specMatches (body aft bef : Str) : List Str :=
  specMatchesAux (body.length + 1) body aft bef

/-- A failed `stringBetween` search returns the empty string. -/
theorem stringBetween_false {s a b : Str} {m : Str}
    (h : stringBetween s a b = (false, m)) : m = [] := by
  unfold stringBetween at h
  split at h
  · exact ((Prod.mk.injEq _ _ _ _).mp h).2.symm
  · split at h
    · exact ((Prod.mk.injEq _ _ _ _).mp h).2.symm
    · simp at h

/-- A successful `stringBetween` search implies the opening delimiter
occurs in the body. -/
theorem stringBetween_true_aft {s a b : Str} {m : Str}
    (h : stringBetween s a b = (true, m)) : ∃ i, strIndex s a = some i := by
  unfold stringBetween at h
  split at h
  · simp at h
  · next i heq => exact ⟨i, heq⟩

/-- If a pattern does not occur in a string, it does not occur in any
suffix of it. -/
theorem strIndex_drop_none {s pat : Str} (h : strIndex s pat = none) :
    ∀ k, strIndex (s.drop k) pat = none := by
  intro k
  induction k generalizing s with
  | zero => rw [List.drop_zero]; exact h
  | succ k ih =>
    have h1 : strIndex (s.drop 1) pat = none := by
      unfold strIndex at h
      by_cases hp : pat.isPrefixOf s
      · simp [hp] at h
      · rcases s with _ | ⟨c, t⟩
        · rw [List.drop_nil]
          unfold strIndex
          simp [hp]
        · simp only [hp, if_false] at h
          simpa using Option.map_eq_none.mp h
    have hd : s.drop (k + 1) = (s.drop 1).drop k := by
      rw [List.drop_drop, Nat.add_comm]
    rw [hd]
    exact ih h1

/-- When `stringBetween` fails although the opening delimiter occurs at
index `i`, the closing delimiter does not occur after the end of that
occurrence. -/
theorem stringBetween_false_bef {s a b : Str} {m : Str} {i : Nat}
    (h : stringBetween s a b = (false, m)) (hi : strIndex s a = some i) :
    strIndex (s.drop (i + a.length)) b = none := by
  unfold stringBetween at h
  rw [hi] at h
  simp only [] at h
  split at h
  · assumption
  · simp at h

/-- If the closing delimiter is missing after the first opening
delimiter, the remaining suffix contributes no matches at all. -/
theorem goMatchesAux_nil_of_bef_missing (s a b : Str) (i : Nat)
    (hb : strIndex (s.drop (i + a.length)) b = none) :
    ∀ fuel, goMatchesAux fuel (s.drop (i + a.length + 1)) a b = [] := by
  have hb' : ∀ k, strIndex ((s.drop (i + a.length)).drop k) b = none :=
    strIndex_drop_none hb
  have key : ∀ j, strIndex ((s.drop (i + a.length + 1)).drop (j + a.length)) b = none := by
    intro j
    have hd : (s.drop (i + a.length + 1)).drop (j + a.length)
        = (s.drop (i + a.length)).drop (1 + (j + a.length)) := by
      rw [List.drop_drop, List.drop_drop]
      ring_nf
    rw [hd]
    exact hb' _
  intro fuel
  rcases fuel with _ | fuel
  · rfl
  · rw [goMatchesAux]
    rcases hsb : stringBetween (s.drop (i + a.length + 1)) a b with ⟨fb, m⟩
    rcases fb
    · rfl
    · exfalso
      obtain ⟨i', hi'⟩ := stringBetween_true_aft hsb
      simp only [stringBetween, hi', key i'] at hsb
      simp at hsb

/-- Main induction for the amended C1: for any sufficient fuel,
`stringBetweenN` indexes the occurrence-scan list when it does not
panic. -/
theorem stringBetweenN_eq_goMatchesAux (a b : Str) : ∀ (n fuel : Nat) (body : Str),
    body.length < fuel →
    stringBetweenN body a b n ≠ none →
    stringBetweenN body a b n =
      if h : n < (goMatchesAux fuel body a b).length then
        some (true, (goMatchesAux fuel body a b).get ⟨n, h⟩)
      else
        some (false, []) := by
  intro n
  induction n with
  | zero =>
    intro fuel body hfuel _
    rcases fuel with _ | fuel
    · omega
    rcases hsb : stringBetween body a b with ⟨fb, m⟩
    rcases fb
    · have hm : m = [] := stringBetween_false hsb
      subst hm
      rw [goMatchesAux, hsb]
      simpa [stringBetweenN] using hsb
    · obtain ⟨i, hi⟩ := stringBetween_true_aft hsb
      rw [goMatchesAux, hsb, hi]
      dsimp only
      have h0 : stringBetweenN body a b 0 = some (true, m) := by
        simp [stringBetweenN, hsb]
      rw [h0]
      by_cases hle : i + a.length + 1 ≤ body.length
      · rw [if_pos hle]
        simp
      · rw [if_neg hle]
        simp
  | succ n ih =>
    intro fuel body hfuel hnp
    rcases fuel with _ | fuel
    · omega
    rcases hi : strIndex body a with _ | i
    · have hs : stringBetweenN body a b (n + 1) = some (false, []) := by
        simp [stringBetweenN, hi]
      have hg : goMatchesAux (fuel + 1) body a b = [] := by
        rw [goMatchesAux]
        rcases hsb : stringBetween body a b with ⟨fb, m⟩
        rcases fb
        · rfl
        · obtain ⟨i', hi'⟩ := stringBetween_true_aft hsb
          rw [hi'] at hi
          cases hi
      rw [hs, hg]
      simp
    · by_cases hle : i + a.length + 1 ≤ body.length
      · have hs : stringBetweenN body a b (n + 1)
            = stringBetweenN (body.drop (i + a.length + 1)) a b n := by
          simp [stringBetweenN, hi, hle]
        rw [hs] at hnp ⊢
        have hlen : (body.drop (i + a.length + 1)).length < fuel := by
          rw [List.length_drop]
          omega
        rcases hsb : stringBetween body a b with ⟨fb, m⟩
        rcases fb
        · -- no match at this level: the whole suffix has no closing delimiter
          have hb := stringBetween_false_bef hsb hi
          have hnil := goMatchesAux_nil_of_bef_missing body a b i hb fuel
          have hg : goMatchesAux (fuel + 1) body a b = [] := by
            rw [goMatchesAux, hsb]
          rw [ih fuel _ hlen hnp, hnil, hg]
          simp
        · have hg : goMatchesAux (fuel + 1) body a b
              = m :: goMatchesAux fuel (body.drop (i + a.length + 1)) a b := by
            rw [goMatchesAux, hsb, hi]
            dsimp only
            rw [if_pos hle]
          rw [ih fuel _ hlen hnp, hg]
          by_cases hlt : n < (goMatchesAux fuel (body.drop (i + a.length + 1)) a b).length
          · rw [dif_pos hlt, dif_pos (by simpa using Nat.succ_lt_succ hlt)]
            rfl
          · rw [dif_neg hlt, dif_neg (by simpa using fun h => hlt (Nat.lt_of_succ_lt_succ h))]
      · exfalso
        apply hnp
        simp [stringBetweenN, hi, hle]

/-- C1, amended: whenever `stringBetweenN(body, AfterThis, BeforeThis, n)`
does not panic on an out-of-range slice, it returns `(true, m)` for the
`(n+1)`-th entry `m` of the off-by-one occurrence scan `goMatches`
(which resumes the search for the next `AfterThis` one byte past the
end of the previous occurrence, so an occurrence starting directly at
the end of the previous one is skipped), and `(false, "")` when that
scan has at most `n` entries. -/
theorem stringBetweenN_eq_goMatches (body a b : Str) (n : Nat)
    (hnp : stringBetweenN body a b n ≠ none) :
    stringBetweenN body a b n =
      if h : n < (goMatches body a b).length then
        some (true, (goMatches body a b).get ⟨n, h⟩)
      else
        some (false, []) :=
  stringBetweenN_eq_goMatchesAux a b n (body.length + 1) body (Nat.lt_succ_self _) hnp

/-- C1 counterexample: with body `"aab"`, `AfterThis = "a"`,
`BeforeThis = "b"` the spec-side left-to-right match list has two
entries (`"a"` at occurrence 0 and `""` at occurrence 1), yet
`stringBetweenN` at occurrence index 1 reports not-found: the source's
`+1` skip jumps over the second, adjacent occurrence of `AfterThis`. -/
theorem stringBetweenN_misses_adjacent_occurrence :
    specMatches (lit "aab") (lit "a") (lit "b") = [lit "a", lit ""] ∧
    stringBetweenN (lit "aab") (lit "a") (lit "b") 1 = some (false, []) := by
  constructor
  · decide
  · decide

/-- Witness for the amended C1 theorem at a concrete input: on body
`"xayb"` with delimiters `"a"`/`"b"`, occurrence 0 does not panic and
the theorem yields the match `"y"`. -/
theorem stringBetweenN_eq_goMatches_witness :
    stringBetweenN (lit "xayb") (lit "a") (lit "b") 0 = some (true, lit "y") := by
  have h := stringBetweenN_eq_goMatches (lit "xayb") (lit "a") (lit "b") 0 (by decide)
  rw [h]
  decide

/-! ## Value store -/

/-- A value stored in `Flow.Values` (`map[string]interface{}` in Go).
Extraction always stores strings; callers may supply non-string values,
modelled by `other`.  Go's `v == ""` comparison on an `interface{}` is
true exactly for a string value equal to `""`. -/
inductive GoVal where
  | str (s : Str)
  | other (n : Nat)
deriving DecidableEq

/-- Go's `v == ""` on an `interface{}` value. -/
def GoVal.isEmptyStr : GoVal → Bool
  | .str [] => true
  | _ => false

/-- The flow value store, `map[string]interface{}`. -/
abbrev ValMap := List (Str × GoVal)

/-- Go map read: `v, ok := m[k]`. -/
def lookupVal : ValMap → Str → Option GoVal
  | [], _ => none
  | (k', v) :: t, k => if k' = k then some v else lookupVal t k

/-- Go map write: `m[k] = v` (overwrite or append). -/
def insertVal : ValMap → Str → GoVal → ValMap
  | [], k, v => [(k, v)]
  | (k', v') :: t, k, v => if k' = k then (k, v) :: t else (k', v') :: insertVal t k v

/-! ## The extraction engine (src/step.go lines 29–114) -/

/-- `Extractable` (src/step.go lines 29–53).  `MaxLength`/`MinLength`
are Go `int`s with `-1` meaning unbounded. -/
inductive Extractable where
  | mk (AfterThis BeforeThis Name : Str) (Iterate : Bool)
       (MaxLength MinLength : Int) (MatchRegexp : Str)
       (IgnoreNotFound : Bool) (Again : Option Extractable)

def Extractable.AfterThis : Extractable → Str
  | .mk a _ _ _ _ _ _ _ _ => a

def Extractable.BeforeThis : Extractable → Str
  | .mk _ b _ _ _ _ _ _ _ => b

def Extractable.Name : Extractable → Str
  | .mk _ _ n _ _ _ _ _ _ => n

def Extractable.Iterate : Extractable → Bool
  | .mk _ _ _ it _ _ _ _ _ => it

def Extractable.MaxLength : Extractable → Int
  | .mk _ _ _ _ mx _ _ _ _ => mx

def Extractable.MinLength : Extractable → Int
  | .mk _ _ _ _ _ mn _ _ _ => mn

def Extractable.MatchRegexp : Extractable → Str
  | .mk _ _ _ _ _ _ r _ _ => r

def Extractable.IgnoreNotFound : Extractable → Bool
  | .mk _ _ _ _ _ _ _ ig _ => ig

def Extractable.Again : Extractable → Option Extractable
  | .mk _ _ _ _ _ _ _ _ ag => ag

/-- Replace the `MatchRegexp` field (the source mutates it in place on
its value receiver while anchoring). -/
def Extractable.withRegexp : Extractable → Str → Extractable
  | .mk a b n it mx mn _ ig ag, r => .mk a b n it mx mn r ig ag

/-- A regexp matcher standing for Go's `regexp.Match(pattern, body)`:
returns the matched flag and whether an error occurred (Go returns
`(false, err)` for a pattern that does not compile). -/
abbrev RM := Str → Str → Bool × Bool

/-- Go's `%d` rendering of an `int`. -/
def intStr (i : Int) : Str := (toString i).data

/-- Go's `%d` rendering of a non-negative integer. -/
def natStr (n : Nat) : Str := (toString n).data

def maxLenMsg (m : Int) (bet : Str) : Str :=
  lit "max length of " ++ intStr m ++ lit " reached: " ++ bet

def minLenMsg (m : Int) (bet : Str) : Str :=
  lit "min length of " ++ intStr m ++ lit " reached: " ++ bet

def regexMsg (p bet : Str) : Str :=
  lit "regex '" ++ p ++ lit "' not matched: " ++ bet

/-- The constraint block of `Extractable.Extract` (src/step.go lines
77–96): `if`/`else if` chain over max length, min length, regexp.
Returns the (possibly anchored) extractable together with the
constraint error, if any.  The source's lines 91–92
(`if err != nil { err = err2 }`) are unreachable — `err` is necessarily
nil at that point — so the matcher's error component is discarded and
only the matched flag is consulted. -/
def checkConstraints (rm : RM) (e : Extractable) (bet : Str) : Extractable × Option Str :=
  if e.MaxLength ≠ -1 ∧ (bet.length : Int) > e.MaxLength then
    (e, some (maxLenMsg e.MaxLength bet))
  else if e.MinLength ≠ -1 ∧ (bet.length : Int) < e.MinLength then
    (e, some (minLenMsg e.MinLength bet))
  else if e.MatchRegexp ≠ [] then
    -- anchoring, lines 84–89
    let p1 := if e.MatchRegexp.head? ≠ some '^' then '^' :: e.MatchRegexp else e.MatchRegexp
    let p2 := if p1.getLast? ≠ some '$' then p1 ++ ['$'] else p1
    let e2 := e.withRegexp p2
    if !(rm p2 bet).1 then (e2, some (regexMsg p2 bet)) else (e2, none)
  else (e, none)

/-- Length of the `Again` chain hanging off an optional extractable. -/
def chainDepth : Option Extractable → Nat
  | none => 0
  | some (.mk _ _ _ _ _ _ _ _ ag) => chainDepth ag + 1

theorem checkConstraints_Again (rm : RM) (e : Extractable) (bet : Str) :
    (checkConstraints rm e bet).1.Again = e.Again := by
  rcases e with ⟨a, b, n, it, mx, mn, r, ig, ag⟩
  unfold checkConstraints Extractable.withRegexp
  dsimp only
  repeat' split
  all_goals rfl

theorem checkConstraints_fields (rm : RM) (e : Extractable) (bet : Str) :
    (checkConstraints rm e bet).1.Name = e.Name ∧
    (checkConstraints rm e bet).1.Iterate = e.Iterate ∧
    (checkConstraints rm e bet).1.IgnoreNotFound = e.IgnoreNotFound := by
  rcases e with ⟨a, b, n, it, mx, mn, r, ig, ag⟩
  unfold checkConstraints Extractable.withRegexp
  dsimp only
  repeat' split
  all_goals exact ⟨rfl, rfl, rfl⟩

/-- A found occurrence bounds the occurrence index by the body length
(each recursion level of `stringBetweenN` drops at least one byte). -/
theorem stringBetweenN_true_le (a b : Str) :
    ∀ (i : Nat) (body s : Str), stringBetweenN body a b i = some (true, s) →
      i ≤ body.length := by
  intro i
  induction i with
  | zero => intro body s _; exact Nat.zero_le _
  | succ i ih =>
    intro body s h
    unfold stringBetweenN at h
    split at h
    · cases h
    · next j hj =>
      split at h
      · next hle =>
        have := ih _ _ h
        rw [List.length_drop] at this
        omega
      · cases h

/-- The loop of `Extractable.Extract` (src/step.go lines 67–114) at
occurrence index `i`.  Returns `none` when the underlying
`stringBetweenN` call panics on an out-of-range slice.  `v` is the
value map, passed through to chained extraction as in the source. -/
def extractLoop (rm : RM) (v : ValMap) (e : Extractable) (body : Str) (i : Nat) :
    Option (Str × Str × Option Str) :=
  match hsb : stringBetweenN body e.AfterThis e.BeforeThis i with
  | none => none
  | some (false, _) =>
    if e.IgnoreNotFound then some (e.Name, [], none)
    else some (e.Name, [], some (lit "not found"))
  | some (true, bet) =>
    match hcc : checkConstraints rm e bet with
    | (e2, some msg) =>
      if e2.Iterate then extractLoop rm v e2 body (i + 1)
      else if e2.IgnoreNotFound then some (e2.Name, [], none)
      else some (e2.Name, [], some msg)
    | (e2, none) =>
      match hag : e2.Again with
      | some a => extractLoop rm v a bet 0
      | none => some (e2.Name, bet, none)
termination_by (chainDepth (some e), body.length + 1 - i)
decreasing_by
  · apply Prod.Lex.right'
    · have h1 : (checkConstraints rm e bet).1.Again = e.Again := checkConstraints_Again rm e bet
      rw [hcc] at h1
      rcases e with ⟨ea, eb, en, eit, emx, emn, er, eig, eag⟩
      rcases e2 with ⟨fa, fb, fn, fit, fmx, fmn, fr, fig, fag⟩
      simp only [Extractable.Again] at h1
      simp [chainDepth, h1]
    · have h2 := stringBetweenN_true_le e.AfterThis e.BeforeThis i body bet hsb
      omega
  · apply Prod.Lex.left
    have h1 : (checkConstraints rm e bet).1.Again = e.Again := checkConstraints_Again rm e bet
    rw [hcc] at h1
    rcases e with ⟨ea, eb, en, eit, emx, emn, er, eig, eag⟩
    rcases e2 with ⟨fa, fb, fn, fit, fmx, fmn, fr, fig, fag⟩
    simp only [Extractable.Again] at h1 hag
    rw [hag] at h1
    simp [chainDepth, ← h1]

/-- `Extractable.Extract` (src/step.go line 67): run the loop from
occurrence index 0. -/
def Extractable.Extract (rm : RM) (e : Extractable) (body : Str) (v : ValMap) :
    Option (Str × Str × Option Str) :=
  extractLoop rm v e body 0

/-! ## C2: fixed constraint order -/

/-- The spec's auto-anchoring: `'^'` prepended when the pattern does not
start with `'^'`, `'$'` appended when it does not end with `'$'`. -/
def specAnchor (p : Str) : Str :=
  (if p.head? ≠ some '^' then '^' :: p else p) ++
    (if p.getLast? ≠ some '$' then ['$'] else [])

/-- First violated constraint in a fixed list of checks. -/
def firstViolation : List (Bool × Str) → Option Str
  | [] => none
  | (b, msg) :: rest => if b then some msg else firstViolation rest

/-- The spec's description of constraint evaluation: max length, then
min length, then (auto-anchored) regex match, stopping at the first
violated constraint and reporting it. -/
def specConstraintOrder (rm : RM) (e : Extractable) (bet : Str) : Option Str :=
  firstViolation
    [ (decide (e.MaxLength ≠ -1) && decide ((bet.length : Int) > e.MaxLength),
        maxLenMsg e.MaxLength bet),
      (decide (e.MinLength ≠ -1) && decide ((bet.length : Int) < e.MinLength),
        minLenMsg e.MinLength bet),
      (decide (e.MatchRegexp ≠ []) && !(rm (specAnchor e.MatchRegexp) bet).1,
        regexMsg (specAnchor e.MatchRegexp) bet) ]

/-- The source's two-step in-place anchoring coincides with the spec's
both-ends anchoring for any nonempty pattern. -/
theorem code_anchor_eq_specAnchor (p : Str) (hp : p ≠ []) :
    (if (if p.head? ≠ some '^' then '^' :: p else p).getLast? ≠ some '$' then
      (if p.head? ≠ some '^' then '^' :: p else p) ++ ['$']
    else (if p.head? ≠ some '^' then '^' :: p else p)) = specAnchor p := by
  rcases p with _ | ⟨c, cs⟩
  · exact absurd rfl hp
  unfold specAnchor
  by_cases hc0 : c = '^'
  · subst hc0
    by_cases ht : ('^' :: cs).getLast? ≠ some '$' <;> simp [ht]
  · by_cases ht : (c :: cs).getLast? ≠ some '$' <;>
      simp [hc0, ht, List.getLast?_cons_cons]

/-- C2: the constraint block evaluates max length, then min length,
then the auto-anchored regex, stopping at the first violated constraint
and reporting it (first conjunct, a refinement against the spec-side
ordered checker); and `Extract` surfaces exactly that first violated
constraint when it finds a candidate at occurrence 0 and neither
iterates nor ignores (second conjunct). -/
theorem extract_constraint_order :
    (∀ (rm : RM) (e : Extractable) (bet : Str),
        (checkConstraints rm e bet).2 = specConstraintOrder rm e bet) ∧
    (∀ (rm : RM) (v : ValMap) (e : Extractable) (body bet msg : Str),
        stringBetweenN body e.AfterThis e.BeforeThis 0 = some (true, bet) →
        specConstraintOrder rm e bet = some msg →
        e.Iterate = false → e.IgnoreNotFound = false →
        Extractable.Extract rm e body v = some (e.Name, [], some msg)) := by
  have hmain : ∀ (rm : RM) (e : Extractable) (bet : Str),
      (checkConstraints rm e bet).2 = specConstraintOrder rm e bet := by
    intro rm e bet
    have d1 : (decide (e.MaxLength ≠ -1) && decide ((bet.length : Int) > e.MaxLength))
        = decide (e.MaxLength ≠ -1 ∧ (bet.length : Int) > e.MaxLength) :=
      (Bool.decide_and _ _).symm
    have d2 : (decide (e.MinLength ≠ -1) && decide ((bet.length : Int) < e.MinLength))
        = decide (e.MinLength ≠ -1 ∧ (bet.length : Int) < e.MinLength) :=
      (Bool.decide_and _ _).symm
    simp only [specConstraintOrder, firstViolation, d1, d2]
    unfold checkConstraints
    by_cases h1 : e.MaxLength ≠ -1 ∧ (bet.length : Int) > e.MaxLength
    · rw [if_pos h1]
      simp [h1]
    · rw [if_neg h1, decide_eq_false h1]
      simp only [Bool.false_eq_true, if_false]
      by_cases h2 : e.MinLength ≠ -1 ∧ (bet.length : Int) < e.MinLength
      · rw [if_pos h2]
        simp [h2]
      · rw [if_neg h2, decide_eq_false h2]
        simp only [Bool.false_eq_true, if_false]
        by_cases h3 : e.MatchRegexp ≠ []
        · rw [if_pos h3]
          rw [code_anchor_eq_specAnchor e.MatchRegexp h3]
          by_cases h4 : (rm (specAnchor e.MatchRegexp) bet).1
          · simp [h4]
          · simp [h3, h4]
        · rw [if_neg h3]
          simp [h3]
  refine ⟨hmain, ?_⟩
  intro rm v e body bet msg hf hc hit hig
  have hc2 : (checkConstraints rm e bet).2 = some msg := by rw [hmain, hc]
  have hfields := checkConstraints_fields rm e bet
  rw [Extractable.Extract, extractLoop, hf]
  dsimp only
  rcases hcc : checkConstraints rm e bet with ⟨e2, err⟩
  rw [hcc] at hc2 hfields
  dsimp only at hc2 hfields
  subst hc2
  have hit2 : e2.Iterate = false := hfields.2.1.trans hit
  have hig2 : e2.IgnoreNotFound = false := hfields.2.2.trans hig
  simp [hit2, hig2, hfields.1]

/-- Witness for C2's second conjunct: delimiters `"-["`/`"]"`, max
length 2, candidate `"tok"` of length 3: `Extract` reports the max
length violation. -/
theorem extract_constraint_order_witness :
    Extractable.Extract (fun _ _ => (true, false))
      (Extractable.mk (lit "-[") (lit "]") (lit "t") false 2 (-1) [] false none)
      (lit "-[tok]") [] =
      some (lit "t", [], some (maxLenMsg 2 (lit "tok"))) := by
  have h := extract_constraint_order.2 (fun _ _ => (true, false)) []
    (Extractable.mk (lit "-[") (lit "]") (lit "t") false 2 (-1) [] false none)
    (lit "-[tok]") (lit "tok") (maxLenMsg 2 (lit "tok"))
    (by decide) (by decide) rfl rfl
  exact h

/-! ## C3: IgnoreNotFound / Iterate policy -/

/-- C3: (1) when the delimiter search is exhausted at the current
occurrence index, `Extract` returns `(Name, "", nil)` if
`IgnoreNotFound` and a not-found error otherwise; (2) on a constraint
violation without `Iterate`, it returns `(Name, "", nil)` if
`IgnoreNotFound` and the constraint error otherwise; (3) on a
constraint violation with `Iterate`, it advances to the next occurrence
index and retries. -/
theorem extract_ignore_iterate_policy :
    (∀ (rm : RM) (v : ValMap) (e : Extractable) (body : Str) (i : Nat),
        stringBetweenN body e.AfterThis e.BeforeThis i = some (false, []) →
        extractLoop rm v e body i =
          some (e.Name, [], if e.IgnoreNotFound then none else some (lit "not found"))) ∧
    (∀ (rm : RM) (v : ValMap) (e : Extractable) (body bet msg : Str) (i : Nat),
        stringBetweenN body e.AfterThis e.BeforeThis i = some (true, bet) →
        (checkConstraints rm e bet).2 = some msg →
        e.Iterate = false →
        extractLoop rm v e body i =
          some (e.Name, [], if e.IgnoreNotFound then none else some msg)) ∧
    (∀ (rm : RM) (v : ValMap) (e : Extractable) (body bet msg : Str) (i : Nat),
        stringBetweenN body e.AfterThis e.BeforeThis i = some (true, bet) →
        (checkConstraints rm e bet).2 = some msg →
        e.Iterate = true →
        extractLoop rm v e body i =
          extractLoop rm v (checkConstraints rm e bet).1 body (i + 1)) := by
  refine ⟨?_, ?_, ?_⟩
  · intro rm v e body i h
    rw [extractLoop, h]
    by_cases hig : e.IgnoreNotFound
    · simp [hig]
    · simp [hig]
  · intro rm v e body bet msg i hf hc hit
    have hfields := checkConstraints_fields rm e bet
    rw [extractLoop, hf]
    dsimp only
    rcases hcc : checkConstraints rm e bet with ⟨e2, err⟩
    rw [hcc] at hc hfields
    dsimp only at hc hfields
    subst hc
    have hit2 : e2.Iterate = false := hfields.2.1.trans hit
    by_cases hig : e.IgnoreNotFound = true
    · have hig2 : e2.IgnoreNotFound = true := hfields.2.2.trans hig
      simp [hit2, hig2, hig, hfields.1]
    · have hig2 : e2.IgnoreNotFound = false := by
        rw [hfields.2.2]
        exact Bool.not_eq_true _ ▸ (Bool.eq_false_iff.mpr hig)
      simp [hit2, hig2, Bool.eq_false_iff.mpr hig, hfields.1]
  · intro rm v e body bet msg i hf hc hit
    have hfields := checkConstraints_fields rm e bet
    rw [extractLoop, hf]
    dsimp only
    rcases hcc : checkConstraints rm e bet with ⟨e2, err⟩
    rw [hcc] at hc hfields
    dsimp only at hc hfields
    subst hc
    have hit2 : e2.Iterate = true := hfields.2.1.trans hit
    simp [hit2, hcc]

/-- Witness for C3 at concrete inputs: exhaustion with
`IgnoreNotFound`, a non-iterating max length violation, and an
iterating rule that skips the first (too long) candidate and returns
the second. -/
theorem extract_ignore_iterate_policy_witness :
    (extractLoop (fun _ _ => (true, false)) []
      (Extractable.mk (lit "a") (lit "b") (lit "n1") false (-1) (-1) [] true none)
      (lit "xyz") 0 = some (lit "n1", [], none)) ∧
    (extractLoop (fun _ _ => (true, false)) []
      (Extractable.mk (lit "[") (lit "]") (lit "n2") false 1 (-1) [] false none)
      (lit "[xx]") 0 = some (lit "n2", [], some (maxLenMsg 1 (lit "xx")))) ∧
    (extractLoop (fun _ _ => (true, false)) []
      (Extractable.mk (lit "[") (lit "]") (lit "n3") true 1 (-1) [] false none)
      (lit "[xx][y]") 0 = some (lit "n3", lit "y", none)) := by
  refine ⟨?_, ?_, ?_⟩
  · have h := extract_ignore_iterate_policy.1 (fun _ _ => (true, false)) []
      (Extractable.mk (lit "a") (lit "b") (lit "n1") false (-1) (-1) [] true none)
      (lit "xyz") 0 (by decide)
    rw [h]
    rfl
  · have h := extract_ignore_iterate_policy.2.1 (fun _ _ => (true, false)) []
      (Extractable.mk (lit "[") (lit "]") (lit "n2") false 1 (-1) [] false none)
      (lit "[xx]") (lit "xx") (maxLenMsg 1 (lit "xx")) 0 (by decide) rfl rfl
    rw [h]
    rfl
  · have h := extract_ignore_iterate_policy.2.2 (fun _ _ => (true, false)) []
      (Extractable.mk (lit "[") (lit "]") (lit "n3") true 1 (-1) [] false none)
      (lit "[xx][y]") (lit "xx") (maxLenMsg 1 (lit "xx")) 0 (by decide) rfl rfl
    rw [h]
    have hcc : (checkConstraints (fun _ _ => (true, false))
        (Extractable.mk (lit "[") (lit "]") (lit "n3") true 1 (-1) [] false none)
        (lit "xx")).1 =
        Extractable.mk (lit "[") (lit "]") (lit "n3") true 1 (-1) [] false none := rfl
    rw [hcc]
    rw [extractLoop]
    have hs1 : stringBetweenN (lit "[xx][y]")
        (Extractable.mk (lit "[") (lit "]") (lit "n3") true 1 (-1) [] false none).AfterThis
        (Extractable.mk (lit "[") (lit "]") (lit "n3") true 1 (-1) [] false none).BeforeThis
        (0 + 1) = some (true, lit "y") := by
      decide
    rw [hs1]
    dsimp only
    have hc1 : checkConstraints (fun _ _ => (true, false))
        (Extractable.mk (lit "[") (lit "]") (lit "n3") true 1 (-1) [] false none)
        (lit "y") =
        (Extractable.mk (lit "[") (lit "]") (lit "n3") true 1 (-1) [] false none, none) := rfl
    rw [hc1]
    rfl

/-! ## C9: regexp compile errors -/

/-- `checkConstraints` consults only the matched flag of the regexp
matcher: two matchers agreeing on it yield identical results.  (The
source's `if err != nil { err = err2 }` at lines 91–92 is dead code:
`err` is necessarily nil there, so `err2` is discarded.) -/
theorem checkConstraints_rm_agree (rm rm' : RM)
    (hb : ∀ p s, (rm p s).1 = (rm' p s).1) (e : Extractable) (bet : Str) :
    checkConstraints rm e bet = checkConstraints rm' e bet := by
  unfold checkConstraints
  simp only [hb]

theorem chainDepth_some (e : Extractable) :
    chainDepth (some e) = chainDepth e.Again + 1 := by
  rcases e with ⟨a, b, n, it, mx, mn, r, ig, ag⟩
  simp [chainDepth, Extractable.Again]

/-- Bounded-measure induction for `extract_ignores_regex_error`. -/
theorem extract_rm_irrel_aux (rm rm' : RM) (hb : ∀ p s, (rm p s).1 = (rm' p s).1)
    (v : ValMap) :
    ∀ (d : Nat) (e : Extractable), chainDepth (some e) ≤ d →
    ∀ (k : Nat) (body : Str) (i : Nat), body.length + 1 - i ≤ k →
      extractLoop rm v e body i = extractLoop rm' v e body i := by
  intro d
  induction d with
  | zero =>
    intro e hd
    rw [chainDepth_some] at hd
    exact absurd hd (by omega)
  | succ d ihd =>
    intro e hd k
    induction k generalizing e hd with
    | zero =>
      intro body i hk
      rw [extractLoop, extractLoop]
      rcases hsb' : stringBetweenN body e.AfterThis e.BeforeThis i with _ | ⟨fb, s⟩
      · rfl
      · rcases fb
        · rfl
        · exact absurd (stringBetweenN_true_le _ _ i body s hsb') (by omega)
    | succ k ihk =>
      intro body i hk
      rw [extractLoop, extractLoop]
      rcases hsb' : stringBetweenN body e.AfterThis e.BeforeThis i with _ | ⟨fb, s⟩
      · rfl
      · rcases fb
        · rfl
        · have hle : i ≤ body.length := stringBetweenN_true_le _ _ i body s hsb'
          dsimp only
          rw [checkConstraints_rm_agree rm rm' hb e s]
          rcases hcc' : checkConstraints rm' e s with ⟨e2, err⟩
          have hA : e2.Again = e.Again := by
            have h1 := checkConstraints_Again rm' e s
            rw [hcc'] at h1
            exact h1
          rcases err with _ | msg
          · dsimp only
            rcases hag' : e2.Again with _ | a
            · rfl
            · have hd2 : chainDepth (some a) ≤ d := by
                rw [chainDepth_some] at hd
                rw [hag'] at hA
                rw [← hA] at hd
                omega
              exact ihd a hd2 (s.length + 1) s 0 (by omega)
          · dsimp only
            by_cases hit : e2.Iterate = true
            · rw [if_pos hit, if_pos hit]
              have hd2 : chainDepth (some e2) ≤ d + 1 := by
                rw [chainDepth_some, hA, ← chainDepth_some]
                exact hd
              exact ihk e2 hd2 body (i + 1) (by omega)
            · rw [if_neg hit, if_neg hit]

/-- C9, amended: `Extract` ignores the error result of the regexp
matcher entirely — any two matchers that agree on the matched flag
produce identical extraction results.  Since Go's `regexp.Match`
returns `(false, err)` for a pattern that does not compile, an invalid
`MatchRegexp` behaves exactly like a pattern that failed to match: it
yields a regex-not-matched constraint violation (subject to
`Iterate`/`IgnoreNotFound`), never a silent success and never a
configuration error. -/
theorem extract_ignores_regex_error (rm rm' : RM)
    (hb : ∀ p s, (rm p s).1 = (rm' p s).1)
    (e : Extractable) (body : Str) (v : ValMap) :
    Extractable.Extract rm e body v = Extractable.Extract rm' e body v := by
  rw [Extractable.Extract, Extractable.Extract]
  exact extract_rm_irrel_aux rm rm' hb v (chainDepth (some e)) e (Nat.le_refl _)
    (body.length + 1) body 0 (by omega)

/-- Witness for the amended C9 theorem: a matcher that reports an error
(second component `true`, as Go's `regexp.Match` does on an invalid
pattern) gives the same result as the error-free matcher with the same
matched flag. -/
theorem extract_ignores_regex_error_witness :
    Extractable.Extract (fun _ _ => (false, true))
      (Extractable.mk (lit "[") (lit "]") (lit "x") false (-1) (-1) (lit "(") false none)
      (lit "[tok]") [] =
    Extractable.Extract (fun _ _ => (false, false))
      (Extractable.mk (lit "[") (lit "]") (lit "x") false (-1) (-1) (lit "(") false none)
      (lit "[tok]") [] :=
  extract_ignores_regex_error (fun _ _ => (false, true)) (fun _ _ => (false, false))
    (fun _ _ => rfl)
    (Extractable.mk (lit "[") (lit "]") (lit "x") false (-1) (-1) (lit "(") false none)
    (lit "[tok]") []

/-- C9 counterexample: with the invalid pattern `"("` (anchored to
`"^($"`), whose compile error makes Go's `regexp.Match` return
`(false, err)`, `Extract` on a candidate that passes the length checks
returns a regex-not-matched constraint error — not the candidate with
no error as the claim states. -/
theorem extract_invalid_regex_not_silent_success :
    Extractable.Extract (fun _ _ => (false, true))
      (Extractable.mk (lit "[") (lit "]") (lit "x") false (-1) (-1) (lit "(") false none)
      (lit "[tok]") [] =
      some (lit "x", [], some (regexMsg (lit "^($") (lit "tok"))) ∧
    Extractable.Extract (fun _ _ => (false, true))
      (Extractable.mk (lit "[") (lit "]") (lit "x") false (-1) (-1) (lit "(") false none)
      (lit "[tok]") [] ≠ some (lit "x", lit "tok", none) := by
  have heq : Extractable.Extract (fun _ _ => (false, true))
      (Extractable.mk (lit "[") (lit "]") (lit "x") false (-1) (-1) (lit "(") false none)
      (lit "[tok]") [] =
      some (lit "x", [], some (regexMsg (lit "^($") (lit "tok"))) := by
    rw [Extractable.Extract, extractLoop]
    have hs : stringBetweenN (lit "[tok]")
        (Extractable.mk (lit "[") (lit "]") (lit "x") false (-1) (-1) (lit "(") false none).AfterThis
        (Extractable.mk (lit "[") (lit "]") (lit "x") false (-1) (-1) (lit "(") false none).BeforeThis
        0 = some (true, lit "tok") := by decide
    rw [hs]
    dsimp only
    have hc : checkConstraints (fun _ _ => (false, true))
        (Extractable.mk (lit "[") (lit "]") (lit "x") false (-1) (-1) (lit "(") false none)
        (lit "tok") =
        (Extractable.mk (lit "[") (lit "]") (lit "x") false (-1) (-1) (lit "^($") false none,
          some (regexMsg (lit "^($") (lit "tok"))) := rfl
    rw [hc]
    rfl
  refine ⟨heq, ?_⟩
  rw [heq]
  decide

/-! ## Headers (net/http `Header`, modelled as an association list) -/

/-- `http.Header` / `url.Values`: a Go map from string to string slice,
modelled as an association list of its entries. -/
abbrev Header := List (Str × List Str)

/-- Association-list read for `Header`-shaped Go maps. -/
def lookupStrs : Header → Str → Option (List Str)
  | [], _ => none
  | (k', v) :: t, k => if k' = k then some v else lookupStrs t k

/-- Association-list write for `Header`-shaped Go maps. -/
def insertStrs : Header → Str → List Str → Header
  | [], k, v => [(k, v)]
  | (k', v') :: t, k, v => if k' = k then (k, v) :: t else (k', v') :: insertStrs t k v

/-- Modelled from the spec's external collaborators: Go
`textproto.CanonicalMIMEHeaderKey` accepts exactly ASCII letters,
digits and `!#$%&'*+-.^_|~` (and the backquote) in a header key. -/
def isTokenChar (c : Char) : Bool :=
  (c ≥ 'a' && c ≤ 'z') || (c ≥ 'A' && c ≤ 'Z') || (c ≥ '0' && c ≤ '9') ||
    [33, 35, 36, 37, 38, 39, 42, 43, 45, 46, 94, 95, 96, 124, 126].contains c.toNat

/-- Word-wise canonicalisation: uppercase after start or `'-'`,
lowercase elsewhere. -/
def canonAux : Bool → Str → Str
  | _, [] => []
  | up, c :: t => (if up then c.toUpper else c.toLower) :: canonAux (c = '-') t

/-- Modelled from the spec's external collaborators: Go
`textproto.CanonicalMIMEHeaderKey`, used by `Header.Get`/`Header.Set`:
canonicalise a valid key, return an invalid key unchanged. -/
def canonicalKey (k : Str) : Str :=
  if k.all isTokenChar then canonAux true k else k

/-- `http.Header.Get`: first value stored under the canonical key, or
`""`. -/
def headerGet (h : Header) (k : Str) : Str :=
  match lookupStrs h (canonicalKey k) with
  | some (v :: _) => v
  | _ => []

/-- `http.Header.Set`: store the single value under the canonical
key. -/
def headerSet (h : Header) (k : Str) (v : Str) : Header :=
  insertStrs h (canonicalKey k) [v]

/-- Byte-wise lexicographic order on Go strings (`<` on `string`). -/
def lexLt : Str → Str → Bool
  | [], [] => false
  | [], _ :: _ => true
  | _ :: _, [] => false
  | a :: as, b :: bs =>
    if a.toNat < b.toNat then true
    else if b.toNat < a.toNat then false
    else lexLt as bs

def insertSorted (x : Str × List Str) : Header → Header
  | [] => [x]
  | y :: t => if lexLt x.1 y.1 then x :: y :: t else y :: insertSorted x t

/-- Sort map entries by key, as `fmt` does when printing a Go map. -/
def sortPairs : Header → Header
  | [] => []
  | x :: t => insertSorted x (sortPairs t)

/-- Space-separated join, as `fmt` prints slices. -/
def joinSp : List Str → Str
  | [] => []
  | [x] => x
  | x :: y :: t => x ++ lit " " ++ joinSp (y :: t)

/-- Modelled from the spec's external collaborators:
`fmt.Sprintf("%v", header)` — Go prints a map in sorted key order as
`map[k1:[v1 v2] k2:[v3]]`. -/
def headerFmt (h : Header) : Str :=
  lit "map[" ++
    joinSp ((sortPairs h).map (fun kv => kv.1 ++ lit ":[" ++ joinSp kv.2 ++ lit "]")) ++
    lit "]"

/-! ## strings.Count and the sanity check -/

theorem isPrefixOf_length_le : ∀ (p s : List Char), p.isPrefixOf s = true → p.length ≤ s.length
  | [], _, _ => Nat.zero_le _
  | a :: as, [], h => by simp [List.isPrefixOf] at h
  | a :: as, b :: bs, h => by
    simp only [List.isPrefixOf, Bool.and_eq_true, beq_iff_eq] at h
    simpa using isPrefixOf_length_le as bs h.2

theorem strIndex_some_le : ∀ (s pat : Str) (i : Nat),
    strIndex s pat = some i → i + pat.length ≤ s.length := by
  intro s
  induction s with
  | nil =>
    intro pat i h
    unfold strIndex at h
    by_cases hp : pat.isPrefixOf [] = true
    · simp only [hp, if_true] at h
      cases h
      simpa using isPrefixOf_length_le pat [] hp
    · simp [hp] at h
  | cons c t ih =>
    intro pat i h
    unfold strIndex at h
    by_cases hp : pat.isPrefixOf (c :: t) = true
    · simp only [hp, if_true] at h
      cases h
      simpa using isPrefixOf_length_le pat (c :: t) hp
    · simp only [hp, if_false] at h
      rcases Option.map_eq_some.mp h with ⟨j, hj, hji⟩
      subst hji
      have := ih pat j hj
      simp only [List.length_cons]
      omega

/-- Scanning loop of `strings.Count` for a nonempty substring; each
found occurrence consumes at least one byte, so fuel `s.length + 1`
never runs out. -/
def countStrAux : Nat → Str → Str → Nat
  | 0, _, _ => 0
  | fuel + 1, s, sub =>
    match strIndex s sub with
    | none => 0
    | some i => 1 + countStrAux fuel (s.drop (i + sub.length)) sub

/-- `strings.Count(s, sub)`: non-overlapping occurrences; for an empty
substring, one more than the length (Go counts runes; bytes and runes
coincide in our byte model). -/
def countStr (s sub : Str) : Nat :=
  if sub = [] then s.length + 1
  else countStrAux (s.length + 1) s sub

/-! ## Value representations of a request body -/

/-- The dynamic type of `Request.Body` (`interface{}` in Go): absent,
raw bytes, text, or form key/value pairs (`url.Values`). -/
inductive GoBody where
  | absent
  | bytes (b : Str)
  | str (s : Str)
  | form (kvs : List (Str × List Str))
deriving DecidableEq

/-- `countBody` (src/step.go lines 162–180).  For a form body Go reads
`v[len(v)-1]`, which panics on an empty value slice (`none`). -/
def countBody : GoBody → Str → Option Nat
  | .bytes b, c => some (countStr b c)
  | .str s, c => some (countStr s c)
  | .form kvs, c =>
    kvs.foldl
      (fun acc kv =>
        match acc, kv.2.getLast? with
        | some n, some last => some (n + countStr kv.1 c + countStr last c)
        | _, _ => none)
      (some 0)
  | .absent, _ => some 0

/-! ## Requests, responses, steps and flows -/

/-- `Request` (src/step.go lines 117–126). -/
structure Request where
  URL : Str
  Method : Str
  Header : Header
  Body : GoBody
  IgnoreRedirects : Bool

/-- The response produced by the external HTTP client. -/
structure HttpResp where
  StatusCode : Nat
  Header : Header
  Body : Str
deriving DecidableEq

/-- `Response` (src/step.go lines 130–134). -/
structure Response where
  Raw : HttpResp
  Body : Str
  Header : Header

/-- An implementation of the `Extracter` interface: `Extract(body,
values) -> (name, value, error)`; `none` models a panic. -/
abbrev Extracter := Str → ValMap → Option (Str × Str × Option Str)

/-- `Step` (src/step.go lines 137–160).  `PostHook` takes the status
code, headers and body and returns an optional error. -/
structure Step where
  Name : Str
  Request : Request
  Response : Option Response
  KeysInput : List Str
  KeysOutput : List Extracter
  PostHook : Option (Nat → Header → Str → Option Str)

/-- `Flow` (src/flows.go lines 13–27).  The cookie jar is opaque:
only presence matters to the model. -/
structure Flow where
  RequiredValues : List Str
  Values : ValMap
  Steps : List Step
  CookieJar : Option Unit

/-- `fmt` of `"Step %d.'%s'"`, the step-context prefix used by the
source's error wrapping. -/
def stepTag (i : Nat) (name : Str) : Str :=
  lit "Step " ++ natStr i ++ lit ".'" ++ name ++ lit "'"

/-- `MissingValueError.Error()` (src/flows.go lines 35–40). -/
def mveMsg (pre k : Str) : Str :=
  if pre ≠ [] then pre ++ lit " missing or empty key value: " ++ k
  else lit "Missing or empty key value: " ++ k

/-- `SanityCheck` (src/step.go lines 202–209): reject the step when the
request materials contain fewer `"{{"` markers than declared input
keys. `none` models the panic countBody can raise. -/
def sanityCheck (s : Step) (stepNb : Nat) : Option (Option Str) :=
  match countBody s.Request.Body (lit "\x7b\x7b") with
  | none => none
  | some n =>
    if n + countStr (headerFmt s.Request.Header ++ s.Request.URL) (lit "\x7b\x7b")
        < s.KeysInput.length then
      some (some (stepTag stepNb s.Name ++ lit " request appears to not contain enough replacements"))
    else
      some none

/-! ## Templating layer -/

/-- The external text/template engine: parse the fragment and execute
it against the value map (`template.New(...).Parse` followed by
`Execute`; both error paths are propagated verbatim by the source, so
one combined function suffices). -/
abbrev Tmpl := ValMap → Str → Except Str Str

/-- `replaceInBytes` (src/step.go lines 211–226): substitution into a
byte body, which fails when the resolved output is byte-identical to
the input. -/
def replaceInBytes (texec : Tmpl) (vals : ValMap) (bod : Str) : Except Str Str :=
  match texec vals bod with
  | .error e => .error e
  | .ok output =>
    if output = bod then .error (lit "didn't replace anything in request, but should have")
    else .ok output

/-- `replaceInString` (src/step.go lines 228–239): substitution with no
identity check. -/
def replaceInString (texec : Tmpl) (vals : ValMap) (s : Str) : Except Str Str :=
  texec vals s

/-- Modelled from the spec: `url.Values.Encode` on the rebuilt form —
"encoded as `application/x-www-form-urlencoded` on send" — key-sorted
`k=v` pairs joined with `&` (percent-escaping of the external encoder
is not modelled; no claim depends on it). -/
def formEncode (kvs : List (Str × List Str)) : Str :=
  joinAmp ((sortPairs kvs).map (fun kv => kv.2.map (fun v => kv.1 ++ lit "=" ++ v))).flatten
where
  joinAmp : List Str → Str
    | [] => []
    | [x] => x
    | x :: y :: t => x ++ lit "&" ++ joinAmp (y :: t)

/-- The form-body loop of `ReplaceInBody` (src/step.go lines 259–272):
substitute each key and its last value, collecting into a fresh
`url.Values`.  `v[len(v)-1]` panics (`none`) on an empty value
slice. -/
def replaceFormLoop (texec : Tmpl) (vals : ValMap) :
    List (Str × List Str) → List (Str × List Str) →
    Option (Except Str (List (Str × List Str)))
  | [], tmp => some (.ok tmp)
  | (k, vs) :: rest, tmp =>
    match vs.getLast? with
    | none => none
    | some lastV =>
      match replaceInString texec vals k with
      | .error e => some (.error e)
      | .ok newK =>
        match replaceInString texec vals lastV with
        | .error e => some (.error e)
        | .ok newV => replaceFormLoop texec vals rest (insertStrs tmp newK [newV])

/-- `Step.ReplaceInBody` (src/step.go lines 242–284).  Substitution
runs only when the step declares input keys and the body is present;
textual and byte bodies go through `replaceInBytes` (converting the body
to bytes), a form body is rebuilt per key/value and encoded, and the
body is left untouched when the form is empty (the loop never runs, so
`bod` stays nil).  Errors are wrapped with the step context. -/
def replaceInBody (texec : Tmpl) (vals : ValMap) (s : Step) (stepNb : Nat) :
    Option (Except Str Step) :=
  if s.KeysInput ≠ [] ∧ s.Request.Body ≠ .absent then
    match s.Request.Body with
    | .str t =>
      match replaceInBytes texec vals t with
      | .error e => some (.error (stepTag stepNb s.Name ++ lit " " ++ e))
      | .ok b => some (.ok { s with Request := { s.Request with Body := .bytes b } })
    | .bytes t =>
      match replaceInBytes texec vals t with
      | .error e => some (.error (stepTag stepNb s.Name ++ lit " " ++ e))
      | .ok b => some (.ok { s with Request := { s.Request with Body := .bytes b } })
    | .form kvs =>
      match replaceFormLoop texec vals kvs [] with
      | none => none
      | some (.error e) => some (.error (stepTag stepNb s.Name ++ lit " " ++ e))
      | some (.ok tmp) =>
        if kvs = [] then some (.ok s)
        else some (.ok { s with Request := { s.Request with Body := .bytes (formEncode tmp) } })
    | .absent => some (.ok s)
  else
    some (.ok s)

/-- `Step.ReplaceInHeader` (src/step.go lines 287–300): for each header
key, substitute into its first canonical value and set it back; errors
are returned bare (no step context).  The Go source iterates the live
map in unspecified order; the model iterates a snapshot of the stored
keys in representation order. -/
def replaceInHeader (texec : Tmpl) (vals : ValMap) (h : Header) : Except Str Header :=
  go (h.map (·.1)) h
where
  go : List Str → Header → Except Str Header
    | [], acc => .ok acc
    | k :: rest, acc =>
      match texec vals (headerGet acc k) with
      | .error e => .error e
      | .ok out => go rest (headerSet acc k out)

/-- `Step.ReplaceInURL` (src/step.go lines 303–315): substitution into
the URL, errors returned bare, result always installed. -/
def replaceInURL (texec : Tmpl) (vals : ValMap) (u : Str) : Except Str Str :=
  texec vals u

/-! ## Request execution -/

/-- The `r.Body.([]byte)` type assertion in `Request.Do` (src/step.go
line 186): only a nil or `[]byte` body survives; a string or
`url.Values` body panics (`none`). -/
def bodyToBytes : GoBody → Option Str
  | .absent => some []
  | .bytes b => some b
  | .str _ => none
  | .form _ => none

/-- A request as handed to the external HTTP client. -/
structure SentReq where
  URL : Str
  Method : Str
  Header : Header
  Body : Str
  IgnoreRedirects : Bool
deriving DecidableEq

/-- The external HTTP client (`http.Client.Do` together with
`http.NewRequest`; both error paths are propagated verbatim by the
source). -/
abbrev HttpClient := SentReq → Except Str HttpResp

/-- The external gzip reader combined with `ioutil.ReadAll` (both error
paths are propagated verbatim by the source). -/
abbrev Gunzip := Str → Except Str Str

/-- `Request.Do` (src/step.go lines 183–199): assert the body to bytes
(possibly panicking), build the request and hand it to the client.
Returns the client result together with the request that was sent. -/
def requestDo (cl : HttpClient) (r : Request) : Option (Except Str HttpResp × SentReq) :=
  match bodyToBytes r.Body with
  | none => none
  | some b =>
    let req : SentReq := ⟨r.URL, r.Method, r.Header, b, r.IgnoreRedirects⟩
    some (cl req, req)

/-! ## The flow orchestrator (src/flows.go) -/

/-- The validation loop over required or input keys (src/flows.go lines
54–58 and 77–81): the first key that is absent or holds the empty
string. -/
def firstMissing : List Str → ValMap → Option Str
  | [], _ => none
  | k :: rest, m =>
    match lookupVal m k with
    | none => some k
    | some v => if v.isEmptyStr then some k else firstMissing rest m

/-- The extraction loop of `Flow.Execute` (src/flows.go lines
125–136): run each extracter in order, storing results in the value
map; an extracter error or an empty result name aborts with a
step-context error; the map keeps everything stored so far.  `none`
models a panicking extracter. -/
def execExtracts (i : Nat) (name : Str) (body : Str) :
    List Extracter → ValMap → Option (Option Str × ValMap)
  | [], vals => some (none, vals)
  | ex :: rest, vals =>
    match ex body vals with
    | none => none
    | some (n, sv, some err) =>
      some (some (stepTag i name ++ lit " failed because couldn't extract '" ++ n
        ++ lit "': " ++ err), vals)
    | some (n, sv, none) =>
      if n = [] then
        some (some (stepTag i name ++ lit " failed because extracted value has no index " ++ sv),
          vals)
      else
        execExtracts i name body rest (insertVal vals n (.str sv))

/-- The step loop of `Flow.Execute` (src/flows.go lines 74–144),
returning the outcome, the final value map and the requests handed to
the HTTP client, or `none` on a panic.  The writes of
`f.Steps[i].Response` do not influence control flow, the value map, the
requests, or any error, and are not tracked. -/
def execSteps (cl : HttpClient) (gz : Gunzip) (texec : Tmpl) :
    List Step → Nat → ValMap → List SentReq →
    Option (Except Str Unit × ValMap × List SentReq)
  | [], _, vals, trace => some (.ok (), vals, trace)
  | st :: rest, i, vals, trace =>
    match firstMissing st.KeysInput vals with
    | some k => some (.error (mveMsg (stepTag i st.Name ++ lit " failed:") k), vals, trace)
    | none =>
      match sanityCheck st i with
      | none => none
      | some (some e) => some (.error e, vals, trace)
      | some none =>
        match replaceInBody texec vals st i with
        | none => none
        | some (.error e) => some (.error e, vals, trace)
        | some (.ok st1) =>
          match replaceInHeader texec vals st1.Request.Header with
          | .error e => some (.error e, vals, trace)
          | .ok h2 =>
            match replaceInURL texec vals st1.Request.URL with
            | .error e => some (.error e, vals, trace)
            | .ok u3 =>
              let st3 : Step :=
                { st1 with Request := { st1.Request with Header := h2, URL := u3 } }
              match requestDo cl st3.Request with
              | none => none
              | some (.error e, req) => some (.error e, vals, trace ++ [req])
              | some (.ok resp, req) =>
                match (if headerGet resp.Header (lit "Content-Encoding") = lit "gzip"
                       then gz resp.Body else .ok resp.Body : Except Str Str) with
                | .error e => some (.error e, vals, trace ++ [req])
                | .ok body =>
                  match execExtracts i st.Name body st.KeysOutput vals with
                  | none => none
                  | some (some e, vals2) => some (.error e, vals2, trace ++ [req])
                  | some (none, vals2) =>
                    match st.PostHook with
                    | some hook =>
                      match hook resp.StatusCode resp.Header body with
                      | some e =>
                        some (.error (stepTag i st.Name ++ lit " " ++ e), vals2, trace ++ [req])
                      | none => execSteps cl gz texec rest (i + 1) vals2 (trace ++ [req])
                    | none => execSteps cl gz texec rest (i + 1) vals2 (trace ++ [req])

/-- `Flow.Execute` (src/flows.go lines 51–147): validate the required
values, install the caller-supplied map as the flow's value store,
create the cookie jar and client (`cookiejar.New(nil)` never fails),
and run the steps.  Returns the outcome, the final value store and the
requests issued, or `none` on a panic. -/
def Flow.Execute (cl : HttpClient) (gz : Gunzip) (texec : Tmpl)
    (f : Flow) (values : ValMap) :
    Option (Except Str Unit × ValMap × List SentReq) :=
  match firstMissing f.RequiredValues values with
  | some k => some (.error (mveMsg [] k), f.Values, [])
  | none => execSteps cl gz texec f.Steps 0 values []

/-! ## Flow cloning (src/flows.go lines 149–198) -/

/-- `newBody` (src/flows.go lines 149–168): copy a body by value.  For
a form body only the last value of each key is kept
(`newVals[k] = []string{v[len(v)-1]}`); an empty value slice panics
(`none`). -/
def newBody : GoBody → Option GoBody
  | .absent => some .absent
  | .bytes t => some (.bytes t)
  | .str t => some (.str t)
  | .form kvs => (go kvs []).map .form
where
  go : List (Str × List Str) → List (Str × List Str) → Option (List (Str × List Str))
    | [], acc => some acc
    | (k, vs) :: rest, acc =>
      match vs.getLast? with
      | none => none
      | some l => go rest (insertStrs acc k [l])

/-- The header copy of `CompleteCopy` (src/flows.go lines 185–188):
`newHeader.Set(k, old.Get(k))` for every stored key — only the first
value of each canonical key survives, under the canonicalised key. -/
def copyHeader (h : Header) : Header :=
  (h.map (·.1)).foldl (fun acc k => headerSet acc k (headerGet h k)) []

/-- Per-step part of `CompleteCopy` (src/flows.go lines 184–195): fresh
header and body, `Response` reset; the input/output declarations and
the post-hook are shared. -/
def copyStep (st : Step) : Option Step :=
  (newBody st.Request.Body).map fun b =>
    { st with
      Request := { st.Request with Body := b, Header := copyHeader st.Request.Header }
      Response := none }

def copySteps : List Step → Option (List Step)
  | [] => some []
  | st :: rest =>
    match copyStep st, copySteps rest with
    | some a, some b => some (a :: b)
    | _, _ => none

/-- `Flow.CompleteCopy` (src/flows.go lines 173–198): copy the
required-value and step lists, clear the value store and the cookie
jar, and copy each step's request body and header.  `none` models the
panic `newBody` can raise. -/
def Flow.CompleteCopy (f : Flow) : Option Flow :=
  (copySteps f.Steps).map fun steps =>
    { RequiredValues := f.RequiredValues
      Values := []
      Steps := steps
      CookieJar := none }

/-! ## C5: required-value validation happens before any network activity -/

/-- A key that Go's `if v, ok := values[k]; !ok || v == ""` rejects. -/
def missingKey (m : ValMap) (k : Str) : Prop :=
  lookupVal m k = none ∨ lookupVal m k = some (.str [])

theorem isEmptyStr_iff (v : GoVal) : v.isEmptyStr = true ↔ v = .str [] := by
  rcases v with s | n
  · rcases s with _ | ⟨c, t⟩ <;> simp [GoVal.isEmptyStr]
  · simp [GoVal.isEmptyStr]

theorem firstMissing_exists :
    ∀ (keys : List Str) (m : ValMap) (k : Str), k ∈ keys → missingKey m k →
      ∃ k', firstMissing keys m = some k' ∧ k' ∈ keys ∧ missingKey m k' := by
  intro keys
  induction keys with
  | nil => intro m k hk; cases hk
  | cons k0 rest ih =>
    intro m k hk hmiss
    rcases hl : lookupVal m k0 with _ | v
    · exact ⟨k0, by simp [firstMissing, hl], List.mem_cons_self _ _, Or.inl hl⟩
    · by_cases hv : v.isEmptyStr = true
      · refine ⟨k0, ?_, List.mem_cons_self _ _, Or.inr ?_⟩
        · simp [firstMissing, hl, hv]
        · rw [hl, (isEmptyStr_iff v).mp hv]
      · have hk0 : k ≠ k0 := by
          rintro rfl
          rcases hmiss with h | h
          · rw [hl] at h; cases h
          · rw [hl] at h
            cases h
            simp [GoVal.isEmptyStr] at hv
        have hk' : k ∈ rest := by
          rcases List.mem_cons.mp hk with h | h
          · exact absurd h hk0
          · exact h
        obtain ⟨k', h1, h2, h3⟩ := ih m k hk' hmiss
        refine ⟨k', ?_, List.mem_cons_of_mem _ h2, h3⟩
        simp [firstMissing, hl, hv, h1]

/-- C5: a required key that is absent from the caller-supplied map or
holds the empty string makes `Execute` fail immediately with a
missing-required-value error naming a (the first such) missing key —
the flow's value store is untouched and the HTTP client is never
invoked (the request trace is empty), so no step has run. -/
theorem execute_missing_required (cl : HttpClient) (gz : Gunzip) (texec : Tmpl)
    (f : Flow) (values : ValMap) (k : Str)
    (hmem : k ∈ f.RequiredValues) (hmiss : missingKey values k) :
    ∃ k', k' ∈ f.RequiredValues ∧ missingKey values k' ∧
      Flow.Execute cl gz texec f values = some (.error (mveMsg [] k'), f.Values, []) := by
  obtain ⟨k', h1, h2, h3⟩ := firstMissing_exists f.RequiredValues values k hmem hmiss
  refine ⟨k', h2, h3, ?_⟩
  rw [Flow.Execute, h1]

/-- Witness for C5: a flow requiring `"user"` executed with an empty
value map fails with the missing-required-value error for `"user"`,
with no request issued. -/
theorem execute_missing_required_witness :
    Flow.Execute (fun _ => .error (lit "no")) (fun b => .ok b) (fun _ s => .ok s)
      { RequiredValues := [lit "user"], Values := [], Steps := [], CookieJar := none }
      [] =
      some (.error (mveMsg [] (lit "user")), [], []) := by
  obtain ⟨k', hmem, hmiss, heq⟩ :=
    execute_missing_required (fun _ => .error (lit "no")) (fun b => .ok b) (fun _ s => .ok s)
      { RequiredValues := [lit "user"], Values := [], Steps := [], CookieJar := none }
      [] (lit "user") (by simp) (Or.inl rfl)
  have hk : k' = lit "user" := by
    simpa using hmem
  rw [hk] at heq
  exact heq

/-! ## C8: body representations at send time -/

/-- C8 evaluated at the failing input: `Request.Do` asserts
`r.Body.([]byte)` (src/step.go line 186), so a step whose body is the
Go string `"hello"` with no declared input keys — which `ReplaceInBody`
leaves untouched — panics when the request is sent, instead of
constructing the outgoing body: the whole `Execute` run panics
(`none`), and no request reaches the HTTP client. -/
theorem string_body_without_keys_panics :
    (∀ s : Str, bodyToBytes (GoBody.str s) = none) ∧
    (∀ kvs, bodyToBytes (GoBody.form kvs) = none) ∧
    Flow.Execute (fun _ => .ok ⟨200, [], []⟩) (fun b => .ok b) (fun _ s => .ok s)
      { RequiredValues := [], Values := [], CookieJar := none
        Steps := [{ Name := lit "send"
                    Request := { URL := lit "u", Method := lit "POST", Header := []
                                 Body := .str (lit "hello"), IgnoreRedirects := false }
                    Response := none, KeysInput := [], KeysOutput := [], PostHook := none }] }
      [] = none := by
  refine ⟨fun s => rfl, fun kvs => rfl, ?_⟩
  rfl

/-! ## C10: the value store only grows -/

theorem lookupVal_insertVal (m : ValMap) (k : Str) (v : GoVal) (k' : Str) :
    lookupVal (insertVal m k v) k' = if k = k' then some v else lookupVal m k' := by
  induction m with
  | nil =>
    by_cases h : k = k' <;> simp [insertVal, lookupVal, h]
  | cons kv t ih =>
    rcases kv with ⟨k0, v0⟩
    by_cases h0 : k0 = k
    · subst h0
      by_cases h : k0 = k' <;> simp [insertVal, lookupVal, h]
    · by_cases h : k0 = k'
      · subst h
        have hk : k ≠ k0 := fun hh => h0 hh.symm
        simp [insertVal, lookupVal, h0, hk]
      · simp [insertVal, lookupVal, h0, h, ih]

theorem insertVal_preserves (m : ValMap) (k : Str) (v : GoVal) (k' : Str)
    (h : lookupVal m k' ≠ none) : lookupVal (insertVal m k v) k' ≠ none := by
  rw [lookupVal_insertVal]
  by_cases hk : k = k' <;> simp [hk, h]

theorem execExtracts_mono (i : Nat) (name : Str) (body : Str) :
    ∀ (exs : List Extracter) (vals : ValMap) (r : Option Str) (vals2 : ValMap),
      execExtracts i name body exs vals = some (r, vals2) →
      ∀ k, lookupVal vals k ≠ none → lookupVal vals2 k ≠ none := by
  intro exs
  induction exs with
  | nil =>
    intro vals r vals2 h k hk
    simp only [execExtracts] at h
    cases h
    exact hk
  | cons ex rest ih =>
    intro vals r vals2 h k hk
    simp only [execExtracts] at h
    rcases hex : ex body vals with _ | ⟨n, sv, err⟩
    · rw [hex] at h; cases h
    · rw [hex] at h
      rcases err with _ | msg
      · dsimp only at h
        by_cases hn : n = []
        · rw [if_pos hn] at h
          cases h
          exact hk
        · rw [if_neg hn] at h
          exact ih _ _ _ h k (insertVal_preserves vals n (.str sv) k hk)
      · dsimp only at h
        cases h
        exact hk

/-- C10: first conjunct — the step loop never removes a key from the
value store: any key present when a step sequence starts (at any index,
with any trace) is still present in the returned store, whether the run
completed or failed.  Second conjunct — for a whole `Execute` call that
passes required-value validation, every key of the installed
caller-supplied map is still present in the returned store. -/
theorem execute_values_monotone :
    (∀ (cl : HttpClient) (gz : Gunzip) (texec : Tmpl) (steps : List Step) (i : Nat)
        (vals : ValMap) (trace : List SentReq) (res : Except Str Unit)
        (fv : ValMap) (tr : List SentReq),
      execSteps cl gz texec steps i vals trace = some (res, fv, tr) →
      ∀ k, lookupVal vals k ≠ none → lookupVal fv k ≠ none) ∧
    (∀ (cl : HttpClient) (gz : Gunzip) (texec : Tmpl) (f : Flow) (values : ValMap)
        (res : Except Str Unit) (fv : ValMap) (tr : List SentReq),
      firstMissing f.RequiredValues values = none →
      Flow.Execute cl gz texec f values = some (res, fv, tr) →
      ∀ k, lookupVal values k ≠ none → lookupVal fv k ≠ none) := by
  have hmain : ∀ (cl : HttpClient) (gz : Gunzip) (texec : Tmpl) (steps : List Step) (i : Nat)
      (vals : ValMap) (trace : List SentReq) (res : Except Str Unit)
      (fv : ValMap) (tr : List SentReq),
      execSteps cl gz texec steps i vals trace = some (res, fv, tr) →
      ∀ k, lookupVal vals k ≠ none → lookupVal fv k ≠ none := by
    intro cl gz texec steps
    induction steps with
    | nil =>
      intro i vals trace res fv tr h k hk
      simp only [execSteps] at h
      cases h
      exact hk
    | cons st rest ih =>
      intro i vals trace res fv tr h k hk
      simp only [execSteps] at h
      rcases h1 : firstMissing st.KeysInput vals with _ | k0
      all_goals rw [h1] at h
      case some => cases h; exact hk
      rcases h2 : sanityCheck st i with _ | e2
      all_goals rw [h2] at h
      case none => cases h
      rcases e2 with _ | msg2
      case some => dsimp only at h; cases h; exact hk
      dsimp only at h
      rcases h3 : replaceInBody texec vals st i with _ | r3
      all_goals rw [h3] at h
      case none => cases h
      rcases r3 with e3 | st1
      case error => dsimp only at h; cases h; exact hk
      dsimp only at h
      rcases h4 : replaceInHeader texec vals st1.Request.Header with e4 | h2'
      all_goals rw [h4] at h
      case error => cases h; exact hk
      rcases h5 : replaceInURL texec vals st1.Request.URL with e5 | u3
      all_goals rw [h5] at h
      case error => cases h; exact hk
      dsimp only at h
      rcases h6 : requestDo cl
          ⟨u3, st1.Request.Method, h2', st1.Request.Body, st1.Request.IgnoreRedirects⟩
        with _ | ⟨r6, req⟩
      all_goals rw [h6] at h
      case none => cases h
      rcases r6 with e6 | resp
      case error => dsimp only at h; cases h; exact hk
      dsimp only at h
      rcases h7 : (if headerGet resp.Header (lit "Content-Encoding") = lit "gzip"
          then gz resp.Body else .ok resp.Body : Except Str Str) with e7 | body
      all_goals rw [h7] at h
      case error => cases h; exact hk
      dsimp only at h
      rcases h8 : execExtracts i st.Name body st.KeysOutput vals with _ | ⟨err8, vals2⟩
      all_goals rw [h8] at h
      case none => cases h
      have hk2 : lookupVal vals2 k ≠ none :=
        execExtracts_mono i st.Name body st.KeysOutput vals err8 vals2 h8 k hk
      rcases err8 with _ | e8
      · dsimp only at h
        rcases hph : st.PostHook with _ | hook
        · rw [hph] at h
          dsimp only at h
          exact ih _ _ _ _ _ _ h k hk2
        · rw [hph] at h
          dsimp only at h
          rcases hh : hook resp.StatusCode resp.Header body with _ | e9
          · rw [hh] at h
            dsimp only at h
            exact ih _ _ _ _ _ _ h k hk2
          · rw [hh] at h
            dsimp only at h
            cases h
            exact hk2
      · dsimp only at h
        cases h
        exact hk2
  refine ⟨hmain, ?_⟩
  intro cl gz texec f values res fv tr hreq h k hk
  rw [Flow.Execute, hreq] at h
  exact hmain cl gz texec f.Steps 0 values [] res fv tr h k hk

/-! ## C4: the no-op-substitution check applies to byte and text bodies only -/

theorem replaceInHeaderGo_id (vals : ValMap) :
    ∀ (keys : List Str) (acc : Header),
      ∃ h2, replaceInHeader.go (fun _ s => .ok s) vals keys acc = .ok h2 := by
  intro keys
  induction keys with
  | nil => intro acc; exact ⟨acc, rfl⟩
  | cons k rest ih =>
    intro acc
    obtain ⟨h2, hh⟩ := ih (headerSet acc k (headerGet acc k))
    exact ⟨h2, hh⟩

/-- C4, amended: the resolved-output-identical-to-input check lives in
`replaceInBytes` and therefore fires exactly for textual and raw-bytes
bodies (when the step declares input keys); a form-encoded body is
substituted per key/value with no such check, and substitution into the
URL or a header value never fails for that reason. -/
theorem body_identity_substitution_policy :
    (∀ (texec : Tmpl) (vals : ValMap) (bod : Str),
        texec vals bod = .ok bod →
        replaceInBytes texec vals bod =
          .error (lit "didn't replace anything in request, but should have")) ∧
    (∀ (texec : Tmpl) (vals : ValMap) (st : Step) (i : Nat) (t : Str),
        st.Request.Body = .str t → st.KeysInput ≠ [] → texec vals t = .ok t →
        replaceInBody texec vals st i =
          some (.error (stepTag i st.Name ++ lit " " ++
            lit "didn't replace anything in request, but should have"))) ∧
    (∀ (vals : ValMap) (st : Step) (i : Nat) (kvs : List (Str × List Str)),
        st.Request.Body = .form kvs → (∀ kv ∈ kvs, kv.2 ≠ []) →
        ∃ st2, replaceInBody (fun _ s => .ok s) vals st i = some (.ok st2)) ∧
    (∀ (vals : ValMap) (u : Str), replaceInURL (fun _ s => .ok s) vals u = .ok u) ∧
    (∀ (vals : ValMap) (h : Header), ∃ h2, replaceInHeader (fun _ s => .ok s) vals h = .ok h2) := by
  refine ⟨?_, ?_, ?_, ?_, ?_⟩
  · intro texec vals bod hid
    rw [replaceInBytes, hid]
    simp
  · intro texec vals st i t hb hk hid
    have hne : st.Request.Body ≠ .absent := by rw [hb]; intro hh; cases hh
    rw [replaceInBody, if_pos ⟨hk, hne⟩, hb]
    dsimp only
    rw [replaceInBytes, hid]
    simp
  · intro vals st i kvs hb hnv
    have hform : ∀ (l : List (Str × List Str)), (∀ kv ∈ l, kv.2 ≠ []) →
        ∀ tmp, ∃ out, replaceFormLoop (fun _ s => .ok s) vals l tmp = some (.ok out) := by
      intro l
      induction l with
      | nil => intro _ tmp; exact ⟨tmp, rfl⟩
      | cons kv rest ih =>
        intro hl tmp
        rcases kv with ⟨k0, vs0⟩
        rcases hlast : vs0.getLast? with _ | lv
        · exact absurd (List.getLast?_eq_none_iff.mp hlast)
            (hl (k0, vs0) (List.mem_cons_self _ _))
        · obtain ⟨out, hout⟩ := ih (fun kv hkv => hl kv (List.mem_cons_of_mem _ hkv))
            (insertStrs tmp k0 [lv])
          refine ⟨out, ?_⟩
          rw [replaceFormLoop, hlast]
          exact hout
    by_cases hkeys : st.KeysInput = []
    · exact ⟨st, by rw [replaceInBody, if_neg (by simp [hkeys])]⟩
    · have hne : st.Request.Body ≠ .absent := by rw [hb]; intro hh; cases hh
      obtain ⟨out, hout⟩ := hform kvs hnv []
      rw [replaceInBody, if_pos ⟨hkeys, hne⟩, hb]
      dsimp only
      rw [hout]
      by_cases hnil : kvs = []
      · exact ⟨st, by dsimp only; rw [if_pos hnil]⟩
      · exact ⟨_, by dsimp only; rw [if_neg hnil]⟩
  · intro vals u
    rfl
  · intro vals h
    exact replaceInHeaderGo_id vals (h.map (·.1)) h

/-- C4 counterexample: a form-encoded body whose substitution resolves
to output byte-identical to the input (every key and value is its own
template) does NOT fail — `ReplaceInBody` succeeds and encodes the
unchanged pairs — contradicting the claim that substitution into every
accepted body representation fails when the resolved output equals the
input. -/
theorem form_identity_substitution_not_failed :
    replaceInBody (fun _ s => .ok s) []
      { Name := lit "s0"
        Request := { URL := lit "u", Method := lit "POST", Header := []
                     Body := .form [(lit "a", [lit "a"])], IgnoreRedirects := false }
        Response := none, KeysInput := [lit "a"], KeysOutput := [], PostHook := none } 0 =
      some (.ok
        { Name := lit "s0"
          Request := { URL := lit "u", Method := lit "POST", Header := []
                       Body := .bytes (lit "a=a"), IgnoreRedirects := false }
          Response := none, KeysInput := [lit "a"], KeysOutput := [], PostHook := none }) := by
  rfl

/-- Witness for the amended C4 theorem: a text body `"x"` whose
substitution is the identity makes `ReplaceInBody` fail with the
wrapped no-op-substitution error. -/
theorem body_identity_substitution_policy_witness :
    replaceInBody (fun _ s => .ok s) []
      { Name := lit "w"
        Request := { URL := lit "u", Method := lit "POST", Header := []
                     Body := .str (lit "x"), IgnoreRedirects := false }
        Response := none, KeysInput := [lit "a"], KeysOutput := [], PostHook := none } 0 =
      some (.error (stepTag 0 (lit "w") ++ lit " " ++
        lit "didn't replace anything in request, but should have")) :=
  body_identity_substitution_policy.2.1 (fun _ s => .ok s) []
    { Name := lit "w"
      Request := { URL := lit "u", Method := lit "POST", Header := []
                   Body := .str (lit "x"), IgnoreRedirects := false }
      Response := none, KeysInput := [lit "a"], KeysOutput := [], PostHook := none }
    0 (lit "x") rfl (by decide) rfl

/-! ## C7: what CompleteCopy preserves and clears -/

theorem copySteps_spec :
    ∀ (l l' : List Step), copySteps l = some l' →
      l'.length = l.length ∧
      ∀ (j : Nat) (st : Step), l.get? j = some st →
        ∃ st', l'.get? j = some st' ∧ copyStep st = some st' := by
  intro l
  induction l with
  | nil =>
    intro l' h
    cases h
    refine ⟨rfl, ?_⟩
    intro j st hst
    simp [List.get?] at hst
  | cons st0 rest ih =>
    intro l' h
    simp only [copySteps] at h
    rcases h1 : copyStep st0 with _ | st0'
    all_goals rw [h1] at h
    · cases h
    · rcases h2 : copySteps rest with _ | rest'
      all_goals rw [h2] at h
      · cases h
      · cases h
        obtain ⟨hlen, hget⟩ := ih rest' h2
        refine ⟨by simp [hlen], ?_⟩
        intro j st hst
        rcases j with _ | j
        · simp only [List.get?] at hst ⊢
          cases hst
          exact ⟨st0', rfl, h1⟩
        · simp only [List.get?] at hst ⊢
          exact hget j st hst

/-- C7, amended: `CompleteCopy` (when no step's form body has an empty
value slice, which would panic) yields a flow with the same required
values, a cleared (`nil`) value store, a cleared cookie jar, and
step-for-step: same name and input keys, `Response` reset to `nil`,
same URL, method and redirect flag, the header rebuilt by
`Set(k, Get(k))` per stored key — keeping only the first value of each
canonicalised key — and the body copied by `newBody`, which preserves
absent, bytes and text bodies but keeps only the last value of each
form key. -/
theorem complete_copy_contract (f g : Flow) (hg : Flow.CompleteCopy f = some g) :
    g.RequiredValues = f.RequiredValues ∧
    g.Values = [] ∧
    g.CookieJar = none ∧
    g.Steps.length = f.Steps.length ∧
    (∀ (j : Nat) (st st' : Step),
      f.Steps.get? j = some st → g.Steps.get? j = some st' →
      (st'.Name = st.Name ∧ st'.Response = none ∧ st'.KeysInput = st.KeysInput) ∧
      (st'.Request.URL = st.Request.URL ∧ st'.Request.Method = st.Request.Method ∧
        st'.Request.IgnoreRedirects = st.Request.IgnoreRedirects) ∧
      st'.Request.Header = copyHeader st.Request.Header ∧
      newBody st.Request.Body = some st'.Request.Body ∧
      (∀ b, st.Request.Body = .bytes b → st'.Request.Body = .bytes b) ∧
      (∀ s, st.Request.Body = .str s → st'.Request.Body = .str s) ∧
      (st.Request.Body = .absent → st'.Request.Body = .absent)) := by
  rw [Flow.CompleteCopy] at hg
  rcases hsteps : copySteps f.Steps with _ | steps'
  all_goals rw [hsteps] at hg
  · cases hg
  · cases hg
    obtain ⟨hlen, hget⟩ := copySteps_spec f.Steps steps' hsteps
    refine ⟨rfl, rfl, rfl, hlen, ?_⟩
    intro j st st' hst hst'
    obtain ⟨st'', hst'', hcs⟩ := hget j st hst
    rw [hst'] at hst''
    cases hst''
    rcases hb : newBody st.Request.Body with _ | b'
    · rw [copyStep, hb] at hcs; cases hcs
    · rw [copyStep, hb] at hcs
      have hval := Option.some.inj hcs
      rw [← hval]
      refine ⟨⟨rfl, rfl, rfl⟩, ⟨rfl, rfl, rfl⟩, rfl, rfl, ?_, ?_, ?_⟩
      · intro b hbb
        rw [hbb] at hb
        simpa [newBody] using hb.symm
      · intro s hbs
        rw [hbs] at hb
        simpa [newBody] using hb.symm
      · intro hba
        rw [hba] at hb
        simpa [newBody] using hb.symm

/-- C7 counterexample: a step whose form body maps `"k"` to
`["a", "b"]` is copied by `CompleteCopy` to a form body mapping `"k"`
to `["b"]` only — the copy does not have the same declared content as
the original, contradicting the deep-copy claim. -/
theorem complete_copy_drops_form_values :
    (Flow.CompleteCopy
      { RequiredValues := [], Values := [], CookieJar := none
        Steps := [{ Name := lit "s0"
                    Request := { URL := lit "u", Method := lit "POST", Header := []
                                 Body := .form [(lit "k", [lit "a", lit "b"])]
                                 IgnoreRedirects := false }
                    Response := none, KeysInput := [], KeysOutput := [], PostHook := none }] }
      ).map (fun g => g.Steps.map (fun st => st.Request.Body)) =
      some [.form [(lit "k", [lit "b"])]] ∧
    GoBody.form [(lit "k", [lit "b"])] ≠ GoBody.form [(lit "k", [lit "a", lit "b"])] := by
  exact ⟨rfl, by decide⟩

/-- Witness for the amended C7 theorem at a concrete flow: copying a
one-step flow that holds live state (values, jar, a captured response)
yields the same required values, a cleared store and jar, and a step
with the response reset and the bytes body preserved. -/
theorem complete_copy_contract_witness :
    ({ RequiredValues := [lit "user"], Values := [], CookieJar := none
       Steps := [{ Name := lit "s0"
                   Request := { URL := lit "u", Method := lit "GET", Header := []
                                Body := GoBody.bytes (lit "x"), IgnoreRedirects := false }
                   Response := none, KeysInput := [], KeysOutput := [], PostHook := none }] }
      : Flow).RequiredValues = [lit "user"] ∧
    ({ RequiredValues := [lit "user"], Values := [], CookieJar := none
       Steps := [{ Name := lit "s0"
                   Request := { URL := lit "u", Method := lit "GET", Header := []
                                Body := GoBody.bytes (lit "x"), IgnoreRedirects := false }
                   Response := none, KeysInput := [], KeysOutput := [], PostHook := none }] }
      : Flow).Values = [] ∧
    ({ RequiredValues := [lit "user"], Values := [], CookieJar := none
       Steps := [{ Name := lit "s0"
                   Request := { URL := lit "u", Method := lit "GET", Header := []
                                Body := GoBody.bytes (lit "x"), IgnoreRedirects := false }
                   Response := none, KeysInput := [], KeysOutput := [], PostHook := none }] }
      : Flow).CookieJar = none := by
  have h := complete_copy_contract
    { RequiredValues := [lit "user"]
      Values := [(lit "left", .str (lit "over"))]
      CookieJar := some ()
      Steps := [{ Name := lit "s0"
                  Request := { URL := lit "u", Method := lit "GET", Header := []
                               Body := GoBody.bytes (lit "x"), IgnoreRedirects := false }
                  Response := some ⟨⟨200, [], []⟩, lit "old", []⟩
                  KeysInput := [], KeysOutput := [], PostHook := none }] }
    { RequiredValues := [lit "user"], Values := [], CookieJar := none
      Steps := [{ Name := lit "s0"
                  Request := { URL := lit "u", Method := lit "GET", Header := []
                               Body := GoBody.bytes (lit "x"), IgnoreRedirects := false }
                  Response := none, KeysInput := [], KeysOutput := [], PostHook := none }] }
    rfl
  exact ⟨h.1, h.2.1, h.2.2.1⟩

/-- Witness for C10 at a concrete input: a one-step flow whose
extracter stores `"token"`, run from an initial store holding `"user"`:
afterwards the store still holds `"user"` (and the new `"token"`). -/
theorem execute_values_monotone_witness :
    Flow.Execute (fun _ => .ok ⟨200, [], lit "resp"⟩) (fun b => .ok b) (fun _ s => .ok s)
      { RequiredValues := [lit "user"], Values := [], CookieJar := none
        Steps := [{ Name := lit "s0"
                    Request := { URL := lit "u", Method := lit "GET", Header := []
                                 Body := .absent, IgnoreRedirects := false }
                    Response := none, KeysInput := []
                    KeysOutput := [fun _ v => some (lit "token", lit "tok", none)]
                    PostHook := none }] }
      [(lit "user", .str (lit "alice"))] =
      some (.ok (), [(lit "user", .str (lit "alice")), (lit "token", .str (lit "tok"))],
        [⟨lit "u", lit "GET", [], [], false⟩]) ∧
    lookupVal [(lit "user", GoVal.str (lit "alice")), (lit "token", GoVal.str (lit "tok"))]
      (lit "user") ≠ none := by
  constructor
  · rfl
  · exact execute_values_monotone.2
      (fun _ => .ok ⟨200, [], lit "resp"⟩) (fun b => .ok b) (fun _ s => .ok s)
      { RequiredValues := [lit "user"], Values := [], CookieJar := none
        Steps := [{ Name := lit "s0"
                    Request := { URL := lit "u", Method := lit "GET", Header := []
                                 Body := .absent, IgnoreRedirects := false }
                    Response := none, KeysInput := []
                    KeysOutput := [fun _ v => some (lit "token", lit "tok", none)]
                    PostHook := none }] }
      [(lit "user", .str (lit "alice"))] (.ok ())
      [(lit "user", .str (lit "alice")), (lit "token", .str (lit "tok"))]
      [⟨lit "u", lit "GET", [], [], false⟩]
      (by rfl) (by rfl) (lit "user") (by simp [lookupVal])

/-! ## C6: which errors carry step context -/

theorem isPrefixOf_append_self : ∀ (x y : Str), x.isPrefixOf (x ++ y) = true
  | [], _ => by simp
  | a :: as, y => by simp [List.isPrefixOf, isPrefixOf_append_self as y]

theorem stepTag_cons (i : Nat) (name : Str) : ∃ rest, stepTag i name = 'S' :: rest :=
  ⟨_, rfl⟩

theorem sanityCheck_error_tagged (st : Step) (i : Nat) (e : Str)
    (h : sanityCheck st i = some (some e)) :
    e = stepTag i st.Name ++ lit " request appears to not contain enough replacements" := by
  rw [sanityCheck] at h
  rcases hc : countBody st.Request.Body (lit "\x7b\x7b") with _ | n
  all_goals rw [hc] at h
  · cases h
  · dsimp only at h
    split at h
    · exact (Option.some.inj (Option.some.inj h)).symm
    · cases Option.some.inj h

/-- Every error out of `ReplaceInBody` is step-tagged. -/
theorem replaceInBody_error_tagged (texec : Tmpl) (vals : ValMap) (st : Step) (i : Nat)
    (e : Str) (h : replaceInBody texec vals st i = some (.error e)) :
    ∃ suf, e = stepTag i st.Name ++ suf := by
  rw [replaceInBody] at h
  by_cases hc : st.KeysInput ≠ [] ∧ st.Request.Body ≠ .absent
  · rw [if_pos hc] at h
    rcases hbody : st.Request.Body with _ | t | t | kvs
    all_goals rw [hbody] at h; dsimp only at h
    · cases h
    · rcases hr : replaceInBytes texec vals t with e0 | b
      all_goals rw [hr] at h
      · cases h
        exact ⟨lit " " ++ e0, by rw [List.append_assoc]⟩
      · cases h
    · rcases hr : replaceInBytes texec vals t with e0 | b
      all_goals rw [hr] at h
      · cases h
        exact ⟨lit " " ++ e0, by rw [List.append_assoc]⟩
      · cases h
    · rcases hl : replaceFormLoop texec vals kvs [] with _ | r
      all_goals rw [hl] at h
      · cases h
      · rcases r with e0 | tmp
        · dsimp only at h
          cases h
          exact ⟨lit " " ++ e0, by rw [List.append_assoc]⟩
        · dsimp only at h
          by_cases hnil : kvs = []
          · rw [if_pos hnil] at h; cases h
          · rw [if_neg hnil] at h; cases h
  · rw [if_neg hc] at h
    cases h

/-- Every error out of the extraction loop is step-tagged. -/
theorem execExtracts_error_tagged (i : Nat) (name : Str) (body : Str) :
    ∀ (exs : List Extracter) (vals : ValMap) (e : Str) (vals2 : ValMap),
      execExtracts i name body exs vals = some (some e, vals2) →
      ∃ suf, e = stepTag i name ++ suf := by
  intro exs
  induction exs with
  | nil =>
    intro vals e vals2 h
    simp only [execExtracts] at h
    cases h
  | cons ex rest ih =>
    intro vals e vals2 h
    simp only [execExtracts] at h
    rcases hex : ex body vals with _ | ⟨n, sv, err⟩
    all_goals rw [hex] at h
    · cases h
    · rcases err with _ | msg
      · dsimp only at h
        by_cases hn : n = []
        · rw [if_pos hn] at h
          cases h
          exact ⟨lit " failed because extracted value has no index " ++ sv,
            by simp [List.append_assoc]⟩
        · rw [if_neg hn] at h
          exact ih _ _ _ h
      · dsimp only at h
        cases h
        exact ⟨lit " failed because couldn't extract '" ++ n ++ lit "': " ++ msg,
          by simp [List.append_assoc]⟩

/-- Header substitution errors are template errors, verbatim. -/
theorem replaceInHeaderGo_error (texec : Tmpl) (vals : ValMap) :
    ∀ (keys : List Str) (acc : Header) (e : Str),
      replaceInHeader.go texec vals keys acc = .error e →
      ∃ s', texec vals s' = .error e := by
  intro keys
  induction keys with
  | nil => intro acc e h; cases h
  | cons k rest ih =>
    intro acc e h
    simp only [replaceInHeader.go] at h
    rcases hr : texec vals (headerGet acc k) with e0 | out
    all_goals rw [hr] at h
    · cases h
      exact ⟨headerGet acc k, hr⟩
    · exact ih _ _ h

/-- The step loop's errors, classified: every error is either prefixed
with `Step j.'name'` for the step `j` (counting from the loop's start
index) at which it occurred, or is an error value of the HTTP client,
the gzip reader, or the template engine, returned verbatim. -/
theorem execSteps_error_form (cl : HttpClient) (gz : Gunzip) (texec : Tmpl) :
    ∀ (steps : List Step) (i : Nat) (vals : ValMap) (trace : List SentReq)
      (fv : ValMap) (tr : List SentReq) (e : Str),
      execSteps cl gz texec steps i vals trace = some (.error e, fv, tr) →
      (∃ (j : Nat) (st : Step), steps.get? j = some st ∧
          (stepTag (i + j) st.Name).isPrefixOf e = true) ∨
      (∃ r, cl r = .error e) ∨ (∃ b, gz b = .error e) ∨
      (∃ v s, texec v s = .error e) := by
  intro steps
  induction steps with
  | nil =>
    intro i vals trace fv tr e h
    simp only [execSteps] at h
    cases h
  | cons st rest ih =>
    intro i vals trace fv tr e h
    have hfirst : ∀ suf, e = stepTag i st.Name ++ suf →
        (∃ (j : Nat) (st' : Step), (st :: rest).get? j = some st' ∧
          (stepTag (i + j) st'.Name).isPrefixOf e = true) := by
      rintro suf rfl
      exact ⟨0, st, rfl, by rw [Nat.add_zero]; exact isPrefixOf_append_self _ _⟩
    simp only [execSteps] at h
    rcases h1 : firstMissing st.KeysInput vals with _ | k0
    all_goals rw [h1] at h
    case some =>
      cases h
      have hpre : stepTag i st.Name ++ lit " failed:" ≠ [] := by
        obtain ⟨rest', hr⟩ := stepTag_cons i st.Name
        rw [hr]
        simp
      refine Or.inl
        (hfirst (lit " failed:" ++ (lit " missing or empty key value: " ++ k0)) ?_)
      rw [mveMsg, if_pos hpre]
      simp [List.append_assoc]
    rcases h2 : sanityCheck st i with _ | e2
    all_goals rw [h2] at h
    case none => cases h
    rcases e2 with _ | msg2
    case some =>
      dsimp only at h
      cases h
      exact Or.inl
        (hfirst (lit " request appears to not contain enough replacements")
          (sanityCheck_error_tagged st i _ h2))
    dsimp only at h
    rcases h3 : replaceInBody texec vals st i with _ | r3
    all_goals rw [h3] at h
    case none => cases h
    rcases r3 with e3 | st1
    case error =>
      dsimp only at h
      cases h
      obtain ⟨suf, hsuf⟩ := replaceInBody_error_tagged texec vals st i _ h3
      exact Or.inl (hfirst _ hsuf)
    dsimp only at h
    rcases h4 : replaceInHeader texec vals st1.Request.Header with e4 | h2'
    all_goals rw [h4] at h
    case error =>
      cases h
      obtain ⟨s', hs'⟩ := replaceInHeaderGo_error texec vals _ _ _ h4
      exact Or.inr (Or.inr (Or.inr ⟨vals, s', hs'⟩))
    rcases h5 : replaceInURL texec vals st1.Request.URL with e5 | u3
    all_goals rw [h5] at h
    case error =>
      cases h
      exact Or.inr (Or.inr (Or.inr ⟨vals, st1.Request.URL, h5⟩))
    dsimp only at h
    rcases h6 : requestDo cl
        ⟨u3, st1.Request.Method, h2', st1.Request.Body, st1.Request.IgnoreRedirects⟩
      with _ | ⟨r6, req⟩
    all_goals rw [h6] at h
    case none => cases h
    rcases r6 with e6 | resp
    case error =>
      dsimp only at h
      cases h
      rw [requestDo] at h6
      rcases hbb : bodyToBytes st1.Request.Body with _ | bb
      all_goals rw [hbb] at h6
      · cases h6
      · dsimp only at h6
        have h6' := Option.some.inj h6
        exact Or.inr (Or.inl ⟨_, congrArg Prod.fst h6'⟩)
    dsimp only at h
    rcases h7 : (if headerGet resp.Header (lit "Content-Encoding") = lit "gzip"
        then gz resp.Body else .ok resp.Body : Except Str Str) with e7 | body
    all_goals rw [h7] at h
    case error =>
      cases h
      by_cases hgz : headerGet resp.Header (lit "Content-Encoding") = lit "gzip"
      · rw [if_pos hgz] at h7
        exact Or.inr (Or.inr (Or.inl ⟨resp.Body, h7⟩))
      · rw [if_neg hgz] at h7
        cases h7
    dsimp only at h
    rcases h8 : execExtracts i st.Name body st.KeysOutput vals with _ | ⟨err8, vals2⟩
    all_goals rw [h8] at h
    case none => cases h
    rcases err8 with _ | e8
    · dsimp only at h
      rcases hph : st.PostHook with _ | hook
      · rw [hph] at h
        dsimp only at h
        rcases ih (i + 1) vals2 (trace ++ [req]) fv tr e h with hl | hr
        · obtain ⟨j, st', hj, hpre⟩ := hl
          refine Or.inl ⟨j + 1, st', by simpa [List.get?] using hj, ?_⟩
          have harith : i + 1 + j = i + (j + 1) := by omega
          rw [← harith]
          exact hpre
        · exact Or.inr hr
      · rw [hph] at h
        dsimp only at h
        rcases hh : hook resp.StatusCode resp.Header body with _ | e9
        · rw [hh] at h
          dsimp only at h
          rcases ih (i + 1) vals2 (trace ++ [req]) fv tr e h with hl | hr
          · obtain ⟨j, st', hj, hpre⟩ := hl
            refine Or.inl ⟨j + 1, st', by simpa [List.get?] using hj, ?_⟩
            have harith : i + 1 + j = i + (j + 1) := by omega
            rw [← harith]
            exact hpre
          · exact Or.inr hr
        · rw [hh] at h
          dsimp only at h
          cases h
          exact Or.inl (hfirst _ (by rw [List.append_assoc]))
    · dsimp only at h
      cases h
      obtain ⟨suf, hsuf⟩ := execExtracts_error_tagged i st.Name body st.KeysOutput vals _ _ h8
      exact Or.inl (hfirst _ hsuf)

/-- C6, amended: after required-value validation, an error returned by
`Execute` either starts with `Step j.'name'` for the step `j` at which
it occurred (errors from the input-key check, sanity check, body
substitution, extraction, empty extraction name and post hook) or is an
error of the HTTP client, the gzip reader, or the template engine run
on a header value or the URL, propagated verbatim without step
context. -/
theorem execute_error_context (cl : HttpClient) (gz : Gunzip) (texec : Tmpl)
    (f : Flow) (values : ValMap) (fv : ValMap) (tr : List SentReq) (e : Str)
    (hreq : firstMissing f.RequiredValues values = none)
    (h : Flow.Execute cl gz texec f values = some (.error e, fv, tr)) :
    (∃ (j : Nat) (st : Step), f.Steps.get? j = some st ∧
        (stepTag j st.Name).isPrefixOf e = true) ∨
    (∃ r, cl r = .error e) ∨ (∃ b, gz b = .error e) ∨
    (∃ v s, texec v s = .error e) := by
  rw [Flow.Execute, hreq] at h
  rcases execSteps_error_form cl gz texec f.Steps 0 values [] fv tr e h with hl | hr
  · obtain ⟨j, st, hj, hpre⟩ := hl
    rw [Nat.zero_add] at hpre
    exact Or.inl ⟨j, st, hj, hpre⟩
  · exact Or.inr hr

/-- C6 counterexample: a transport error is returned by `Execute`
verbatim, with no step index or name — the error `"boom"` of a failing
client carries no `Step 0.'send'` context (it does not even contain
the word `"Step"`). -/
theorem transport_error_lacks_step_context :
    Flow.Execute (fun _ => .error (lit "boom")) (fun b => .ok b) (fun _ s => .ok s)
      { RequiredValues := [], Values := [], CookieJar := none
        Steps := [{ Name := lit "send"
                    Request := { URL := lit "u", Method := lit "GET", Header := []
                                 Body := .absent, IgnoreRedirects := false }
                    Response := none, KeysInput := [], KeysOutput := [], PostHook := none }] }
      [] = some (.error (lit "boom"), [], [⟨lit "u", lit "GET", [], [], false⟩]) ∧
    (stepTag 0 (lit "send")).isPrefixOf (lit "boom") = false ∧
    strIndex (lit "boom") (lit "Step") = none := by
  refine ⟨rfl, ?_, ?_⟩ <;> decide

/-- Witness for the amended C6 theorem: a failing post hook produces an
error, and the theorem classifies it — here as a step-tagged error. -/
theorem execute_error_context_witness :
    (∃ (j : Nat) (st : Step),
        ([{ Name := lit "s0"
            Request := { URL := lit "u", Method := lit "GET", Header := []
                         Body := GoBody.absent, IgnoreRedirects := false }
            Response := none, KeysInput := [], KeysOutput := []
            PostHook := some (fun _ _ _ => some (lit "bad status")) }] : List Step).get? j
          = some st ∧
        (stepTag j st.Name).isPrefixOf (stepTag 0 (lit "s0") ++ lit " " ++ lit "bad status")
          = true) ∨
    (∃ r, (fun (_ : SentReq) => (.ok ⟨200, [], []⟩ : Except Str HttpResp)) r
        = .error (stepTag 0 (lit "s0") ++ lit " " ++ lit "bad status")) ∨
    (∃ b, (fun (b : Str) => (.ok b : Except Str Str)) b
        = .error (stepTag 0 (lit "s0") ++ lit " " ++ lit "bad status")) ∨
    (∃ v s, (fun (_ : ValMap) (s : Str) => (.ok s : Except Str Str)) v s
        = .error (stepTag 0 (lit "s0") ++ lit " " ++ lit "bad status")) :=
  execute_error_context
    (fun _ => .ok ⟨200, [], []⟩) (fun b => .ok b) (fun _ s => .ok s)
    { RequiredValues := [], Values := [], CookieJar := none
      Steps := [{ Name := lit "s0"
                  Request := { URL := lit "u", Method := lit "GET", Header := []
                               Body := GoBody.absent, IgnoreRedirects := false }
                  Response := none, KeysInput := [], KeysOutput := []
                  PostHook := some (fun _ _ _ => some (lit "bad status")) }] }
    [] [] [⟨lit "u", lit "GET", [], [], false⟩]
    (stepTag 0 (lit "s0") ++ lit " " ++ lit "bad status")
    rfl rfl

end Httpsim
